import Mathlib

/-!
Shallow embedding of the container engine generated by the
`MultiIndexMap` derive macro (multi_index_map_derive/src/generators.rs).

Each record type with indexed fields yields a container holding:
  - `_store`: a `slab::Slab` of records (arena with LIFO free-slot reuse),
  - one lookup table per indexed field:
      unique fields:      map key -> usize            (FxHashMap / BTreeMap)
      non-unique fields:  map key -> BTreeSet<usize>  (FxHashMap / BTreeMap)

Modelling choices:
  - Records are `List Nat`: one value per field, in declaration order.
    Field `i` of record `r` is `r.getD i 0`.  A field may be indexed
    (unique or non-unique) or unindexed; the container stores one
    `FieldIndex` per field, in the same order.
  - Both map types are modelled as association lists sorted strictly by
    key, and `BTreeSet<usize>` as a strictly sorted `List Nat`.  This is
    the exact semantics of `BTreeMap`/`BTreeSet` (lookup, insert returning
    the previous value, remove, ascending iteration).  `FxHashMap` has the
    same lookup/insert/remove semantics and only differs in iteration
    order, on which no verified claim depends (the generated hashed
    iterators come with no ordering guarantee).
  - The `slab::Slab` free list (intrusively linked through vacant entries
    in the crate) is modelled as an explicit LIFO stack of vacant slot
    ids, which produces the same allocation behaviour.
  - Rust panics (`panic!`, `.expect`, slab `Index`/`remove` on a vacant
    key) are modelled as `Except String`.  For `insert`, whose claim C1
    is about the state visible at the panic point, the error also carries
    the container state at that point.
-/

set_option linter.unusedVariables false

abbrev Record := List Nat

/-- Unique lookup table: `FxHashMap<K, usize>` / `BTreeMap<K, usize>`,
modelled as an association list sorted strictly by key. -/
abbrev UM := List (Nat × Nat)

/-- Non-unique lookup table: map from key to `BTreeSet<usize>`,
modelled as a sorted association list of strictly sorted slot lists. -/
abbrev NUM := List (Nat × List Nat)

/-- `map.get(key)` on a unique lookup table. -/
def lookupU : UM → Nat → Option Nat
  | [], _ => none
  | (k', v') :: t, k => if k = k' then some v' else lookupU t k

/-- `map.insert(key, value)` on a unique lookup table: stores the pair and
returns the previous value for the key, if any (Rust `insert` semantics). -/
def insertU : UM → Nat → Nat → UM × Option Nat
  | [], k, v => ([(k, v)], none)
  | (k', v') :: t, k, v =>
    if k < k' then ((k, v) :: (k', v') :: t, none)
    else if k = k' then ((k, v) :: t, some v')
    else
      let p := insertU t k v
      ((k', v') :: p.1, p.2)

/-- `map.remove(key)` on a unique lookup table: deletes the key and returns
the previous value, if any. -/
def removeU : UM → Nat → UM × Option Nat
  | [], _ => ([], none)
  | (k', v') :: t, k =>
    if k = k' then (t, some v')
    else
      let p := removeU t k
      ((k', v') :: p.1, p.2)

/-- `map.get(key)` on a non-unique lookup table. -/
def getNU : NUM → Nat → Option (List Nat)
  | [], _ => none
  | (k', l) :: t, k => if k = k' then some l else getNU t k

/-- `BTreeSet::insert`: sorted insertion without duplication. -/
def setInsert : List Nat → Nat → List Nat
  | [], x => [x]
  | a :: t, x =>
    if x < a then x :: a :: t
    else if x = a then a :: t
    else a :: setInsert t x

/-- `map.entry(key).or_insert(BTreeSet::new()).insert(idx)` on a
non-unique lookup table. -/
def entryInsertNU : NUM → Nat → Nat → NUM
  | [], k, x => [(k, [x])]
  | (k', l) :: t, k, x =>
    if k < k' then (k, [x]) :: (k', l) :: t
    else if k = k' then (k', setInsert l x) :: t
    else (k', l) :: entryInsertNU t k x

/-- `map.remove(key)` on a non-unique lookup table: deletes the key and
returns its whole slot set, if present. -/
def removeKeyNU : NUM → Nat → NUM × Option (List Nat)
  | [], _ => ([], none)
  | (k', l) :: t, k =>
    if k = k' then (t, some l)
    else
      let p := removeKeyNU t k
      ((k', l) :: p.1, p.2)

/-- Replace the slot set stored under `k` (the effect of mutating through
`map.get_mut(key)`). -/
def setValNU : NUM → Nat → List Nat → NUM
  | [], _, _ => []
  | (k', l) :: t, k, nl =>
    if k = k' then (k', nl) :: t else (k', l) :: setValNU t k nl

def invMsg : String :=
  "Internal invariants broken, unable to find element in index despite being present in another"

def uniqMsg : String :=
  "Unable to insert element, uniqueness constraint violated"

def emptyGroupMsg : String :=
  "Internal invariants broken, found empty slice in non_unique index"

def storeIndexMsg : String := "slab indexing panicked: invalid key"

def slabRemoveMsg : String := "slab remove panicked: invalid key"

def nthNoneMsg : String := "Error getting mutable reference in non-unique accessor"

def wrongVariantMsg : String :=
  "modelling artifact: no generated method of this shape for this field"

def rereadMsg : String := "modelling artifact: store re-read failed"

/-- The non-unique branch of `generate_removes`: remove slot `idx` from the
set stored under `k`.  If the key is absent nothing happens; if the set has
more than one element, `idx` is removed from it (panicking when absent);
otherwise the key is deleted wholesale without checking its single element. -/
def removeNUAt (m : NUM) (k : Nat) (idx : Nat) : Except String NUM :=
  match getNU m k with
  | none => .ok m
  | some elems =>
    if 1 < elems.length then
      if idx ∈ elems then .ok (setValNU m k (elems.erase idx))
      else .error invMsg
    else .ok (removeKeyNU m k).1

/-- The unique branch of `generate_modifies` (guard already checked):
remove the old key (panicking when absent), then insert the slot stored
under it at the new key, panicking if the new key was already present. -/
def modifyUStep (m : UM) (oldK newK : Nat) : Except String UM :=
  match removeU m oldK with
  | (_, none) => .error invMsg
  | (m1, some idx) =>
    let p := insertU m1 newK idx
    if p.2.isSome then .error uniqMsg else .ok p.1

/-- The non-unique branch of `generate_modifies` (guard already checked):
remove `idx` from the old key's set (panicking as in the source), then
insert it into the new key's set. -/
def modifyNUStep (m : NUM) (oldK newK idx : Nat) : Except String NUM :=
  match getNU m oldK with
  | none => .error invMsg
  | some idxs =>
    if 1 < idxs.length then
      if idx ∈ idxs then .ok (entryInsertNU (setValNU m oldK (idxs.erase idx)) newK idx)
      else .error invMsg
    else .ok (entryInsertNU (removeKeyNU m oldK).1 newK idx)

/-- One per-field lookup table: `_<field>_index`, or no table for an
unindexed field. -/
inductive FieldIndex where
  | unique (m : UM)
  | nonUnique (m : NUM)
  | unindexed
deriving DecidableEq, Repr

/-- The backing storage `slab::Slab<Element>`: slot-addressed entries with
a LIFO free list of vacant slot ids. -/
structure Slab where
  entries : List (Option Record)
  free : List Nat
deriving DecidableEq, Repr

def Slab.get (s : Slab) (i : Nat) : Option Record := s.entries.getD i none

/-- `slab.insert(value)`: pop a reclaimed slot, or append a fresh one. -/
def Slab.insert (s : Slab) (r : Record) : Nat × Slab :=
  match s.free with
  | [] => (s.entries.length, ⟨s.entries ++ [some r], []⟩)
  | k :: rest => (k, ⟨s.entries.set k (some r), rest⟩)

/-- `slab.remove(key)`: take the record out and push the slot on the free
list; `none` models the panic on a vacant key. -/
def Slab.remove (s : Slab) (i : Nat) : Option (Record × Slab) :=
  match s.get i with
  | some r => some (r, ⟨s.entries.set i none, i :: s.free⟩)
  | none => none

/-- Writing through `&mut self._store[idx]`. -/
def Slab.setAt (s : Slab) (i : Nat) (r : Record) : Slab :=
  ⟨s.entries.set i (some r), s.free⟩

def Slab.clear : Slab := ⟨[], []⟩

/-- Positions of the occupied slots, in storage order (the keys yielded by
`slab.iter_mut()`), starting the count at `i`. -/
def occPosFrom : Nat → List (Option Record) → List Nat
  | _, [] => []
  | i, none :: t => occPosFrom (i + 1) t
  | i, some _ :: t => i :: occPosFrom (i + 1) t

def Slab.occPositions (s : Slab) : List Nat := occPosFrom 0 s.entries

/-- The generated container: one store plus one lookup table per field. -/
structure MultiIndexMap where
  _store : Slab
  indices : List FieldIndex
deriving DecidableEq, Repr

/-- One field's `generate_inserts` snippet: key `r.getD i 0`, slot `s`.
On a uniqueness violation the error carries the already-overwritten table
(the source panics only after `map.insert` has replaced the entry). -/
def insStepE (r : Record) (s : Nat) (i : Nat) :
    FieldIndex → Except (String × FieldIndex) FieldIndex
  | .unique m =>
    let p := insertU m (r.getD i 0) s
    if p.2.isSome then .error (uniqMsg, .unique p.1) else .ok (.unique p.1)
  | .nonUnique m => .ok (.nonUnique (entryInsertNU m (r.getD i 0) s))
  | .unindexed => .ok .unindexed

/-- The `#(#inserts)*` expansion: run every field's insert snippet in
declaration order; a panic aborts the sequence, leaving earlier tables
updated and later tables untouched. -/
def insertSteps (r : Record) (s : Nat) :
    Nat → List FieldIndex → Except (String × List FieldIndex) (List FieldIndex)
  | _, [] => .ok []
  | i0, f :: t =>
    match insStepE r s i0 f with
    | .error (msg, f') => .error (msg, f' :: t)
    | .ok f' =>
      match insertSteps r s (i0 + 1) t with
      | .error (msg, t') => .error (msg, f' :: t')
      | .ok t' => .ok (f' :: t')

/-- One field's `generate_removes` snippet, for removed record `rO` that
occupied slot `idx`.  The unique branch discards the removal result
without any check. -/
def removeStepF (rO : Record) (idx : Nat) (i : Nat) :
    FieldIndex → Except String FieldIndex
  | .unique m => .ok (.unique (removeU m (rO.getD i 0)).1)
  | .nonUnique m => (removeNUAt m (rO.getD i 0) idx).map .nonUnique
  | .unindexed => .ok .unindexed

/-- The `#(#removes)*` expansion over all fields. -/
def removeSteps (rO : Record) (idx : Nat) :
    Nat → List FieldIndex → Except String (List FieldIndex)
  | _, [] => .ok []
  | i0, f :: t =>
    match removeStepF rO idx i0 f with
    | .error e => .error e
    | .ok f' => (removeSteps rO idx (i0 + 1) t).map (f' :: ·)

/-- One field's `generate_modifies` snippet: reindex slot `idx` only when
the field's value changed between `rO` (snapshot) and `rN` (mutated). -/
def modifyStepF (rN rO : Record) (idx : Nat) (i : Nat) :
    FieldIndex → Except String FieldIndex
  | .unique m =>
    if rN.getD i 0 ≠ rO.getD i 0 then
      (modifyUStep m (rO.getD i 0) (rN.getD i 0)).map .unique
    else .ok (.unique m)
  | .nonUnique m =>
    if rN.getD i 0 ≠ rO.getD i 0 then
      (modifyNUStep m (rO.getD i 0) (rN.getD i 0) idx).map .nonUnique
    else .ok (.nonUnique m)
  | .unindexed => .ok .unindexed

/-- The `#(#modifies)*` expansion over all fields. -/
def modifySteps (rN rO : Record) (idx : Nat) :
    Nat → List FieldIndex → Except String (List FieldIndex)
  | _, [] => .ok []
  | i0, f :: t =>
    match modifyStepF rN rO idx i0 f with
    | .error e => .error e
    | .ok f' => (modifySteps rN rO idx (i0 + 1) t).map (f' :: ·)

/-- `fn insert(&mut self, elem)`: store first, then every index;
a uniqueness panic surfaces with the store already holding the new
record and the tables updated up to and including the colliding one. -/
def MultiIndexMap.insert (c : MultiIndexMap) (r : Record) :
    Except (String × MultiIndexMap) MultiIndexMap :=
  let p := c._store.insert r
  match insertSteps r p.1 0 c.indices with
  | .ok fs => .ok ⟨p.2, fs⟩
  | .error (msg, fs) => .error (msg, ⟨p.2, fs⟩)

/-- `fn get_by_<field>` for a unique field `i`. -/
def MultiIndexMap.getByUnique (c : MultiIndexMap) (i k : Nat) :
    Except String (Option Record) :=
  match c.indices.get? i with
  | some (.unique m) =>
    match lookupU m k with
    | none => .ok none
    | some idx =>
      match c._store.get idx with
      | some r => .ok (some r)
      | none => .error storeIndexMsg
  | _ => .error wrongVariantMsg

/-- Dereference a list of slots in order (`&self._store[*idx]` for each). -/
def slotsToRecs (st : Slab) : List Nat → Except String (List Record)
  | [] => .ok []
  | s :: t =>
    match st.get s with
    | some r => (slotsToRecs st t).map (r :: ·)
    | none => .error storeIndexMsg

/-- `fn get_by_<field>` for a non-unique field `i`: the group's slots in
ascending order, dereferenced into the store. -/
def MultiIndexMap.getByNonUnique (c : MultiIndexMap) (i k : Nat) :
    Except String (List Record) :=
  match c.indices.get? i with
  | some (.nonUnique m) =>
    match getNU m k with
    | none => .ok []
    | some idxs => slotsToRecs c._store idxs
  | _ => .error wrongVariantMsg

/-- `fn remove_by_<field>` for a unique field `i`: drop the key from the
named table, remove the slot from the store, then run every field's
remove snippet on the pre-removal record. -/
def MultiIndexMap.removeByUnique (c : MultiIndexMap) (i k : Nat) :
    Except String (Option Record × MultiIndexMap) :=
  match c.indices.get? i with
  | some (.unique m) =>
    match removeU m k with
    | (_, none) => .ok (none, c)
    | (m1, some idx) =>
      let fs1 := c.indices.set i (.unique m1)
      match c._store.remove idx with
      | none => .error slabRemoveMsg
      | some (rO, st1) =>
        match removeSteps rO idx 0 fs1 with
        | .error e => .error e
        | .ok fs2 => .ok (some rO, ⟨st1, fs2⟩)
  | _ => .error wrongVariantMsg

/-- The loop body of the non-unique remover: remove each slot from the
store and run every field's remove snippet on its pre-removal record,
collecting the records in iteration order. -/
def removeLoop : List Nat → Slab → List FieldIndex →
    Except String (List Record × Slab × List FieldIndex)
  | [], st, fs => .ok ([], st, fs)
  | idx :: rest, st, fs =>
    match st.remove idx with
    | none => .error slabRemoveMsg
    | some (rO, st1) =>
      match removeSteps rO idx 0 fs with
      | .error e => .error e
      | .ok fs1 =>
        (removeLoop rest st1 fs1).map (fun q => (rO :: q.1, q.2.1, q.2.2))

/-- `fn remove_by_<field>` for a non-unique field `i`: take the whole
group out of the named table, then remove each of its slots. -/
def MultiIndexMap.removeByNonUnique (c : MultiIndexMap) (i k : Nat) :
    Except String (List Record × MultiIndexMap) :=
  match c.indices.get? i with
  | some (.nonUnique m) =>
    match removeKeyNU m k with
    | (_, none) => .ok ([], c)
    | (m1, some idxs) =>
      let fs1 := c.indices.set i (.nonUnique m1)
      (removeLoop idxs c._store fs1).map (fun q => (q.1, ⟨q.2.1, q.2.2⟩))
  | _ => .error wrongVariantMsg

/-- `fn modify_by_<field>` for a unique field `i`: locate the slot via the
named table, snapshot the record, apply the mutator in the store, then run
every field's modify snippet. -/
def MultiIndexMap.modifyByUnique (c : MultiIndexMap) (i k : Nat)
    (f : Record → Record) : Except String (Option Record × MultiIndexMap) :=
  match c.indices.get? i with
  | some (.unique m) =>
    match lookupU m k with
    | none => .ok (none, c)
    | some idx =>
      match c._store.get idx with
      | none => .error storeIndexMsg
      | some rO =>
        let rN := f rO
        let st1 := c._store.setAt idx rN
        match modifySteps rN rO idx 0 c.indices with
        | .error e => .error e
        | .ok fs1 => .ok (some rN, ⟨st1, fs1⟩)
  | _ => .error wrongVariantMsg

/-- The loop body of the non-unique modifier.  The source walks
`self._store.iter_mut()` with `nth(idx - last_idx)`, which counts
*occupied* entries; `rem` is the list of occupied positions not yet
consumed by that iterator, and the element reached is `rem.get? n` —
faithfully reproducing the fact that this lands on slot `idx` only when
no vacant slot interferes.  `acc` collects the returned references. -/
def modifyLoopNU (f : Record → Record) :
    List Nat → Nat → List Nat → Slab → List FieldIndex → List Record →
    Except String (List Record × Slab × List FieldIndex)
  | [], _, _, st, fs, acc => .ok (acc, st, fs)
  | idx :: rest, last, rem, st, fs, acc =>
    let n := idx - last
    match rem.get? n with
    | none => .error nthNoneMsg
    | some pos =>
      match st.get pos with
      | none => .error rereadMsg
      | some rO =>
        let rN := f rO
        let st1 := st.setAt pos rN
        match modifySteps rN rO idx 0 fs with
        | .error e => .error e
        | .ok fs1 => modifyLoopNU f rest (idx + 1) (rem.drop (n + 1)) st1 fs1 (acc ++ [rN])

/-- `fn modify_by_<field>` for a non-unique field `i`: clone the group's
slot set, then mutate and reindex each matching element in turn. -/
def MultiIndexMap.modifyByNonUnique (c : MultiIndexMap) (i k : Nat)
    (f : Record → Record) : Except String (List Record × MultiIndexMap) :=
  match c.indices.get? i with
  | some (.nonUnique m) =>
    let idxs := (getNU m k).getD []
    (modifyLoopNU f idxs 0 c._store.occPositions c._store c.indices []).map
      (fun q => (q.1, ⟨q.2.1, q.2.2⟩))
  | _ => .error wrongVariantMsg

/-- `fn clear(&mut self)`: clear the store and every lookup table. -/
def FieldIndex.clearIdx : FieldIndex → FieldIndex
  | .unique _ => .unique []
  | .nonUnique _ => .nonUnique []
  | .unindexed => .unindexed

def MultiIndexMap.clear (c : MultiIndexMap) : MultiIndexMap :=
  ⟨Slab.clear, c.indices.map FieldIndex.clearIdx⟩

/-- The generated iterator for an ordered-unique field: a forward iterator
and an independent reversed iterator over the `BTreeMap`, both
dereferencing slots into the store. -/
structure IterU where
  _store_ref : Slab
  _iter : UM
  _iter_rev : UM
deriving DecidableEq, Repr

/-- `fn iter_by_<field>` for an ordered-unique field. -/
def MultiIndexMap.iterByUnique (c : MultiIndexMap) (i : Nat) : Option IterU :=
  match c.indices.get? i with
  | some (.unique m) => some ⟨c._store, m, m.reverse⟩
  | _ => none

/-- `Iterator::next`: `Some(&self._store_ref[*self._iter.next()?.1])`. -/
def IterU.next (it : IterU) : Except String (Option (Record × IterU)) :=
  match it._iter with
  | [] => .ok none
  | (_, s) :: t =>
    match it._store_ref.get s with
    | some r => .ok (some (r, ⟨it._store_ref, t, it._iter_rev⟩))
    | none => .error storeIndexMsg

/-- `DoubleEndedIterator::next_back`, driven by the reversed iterator. -/
def IterU.nextBack (it : IterU) : Except String (Option (Record × IterU)) :=
  match it._iter_rev with
  | [] => .ok none
  | (_, s) :: t =>
    match it._store_ref.get s with
    | some r => .ok (some (r, ⟨it._store_ref, it._iter, t⟩))
    | none => .error storeIndexMsg

/-! ### Well-formedness and invariants -/

/-- Positional universal quantifier over a list, counting from `i0`. -/
def AllPos {α : Type} (P : Nat → α → Prop) : Nat → List α → Prop
  | _, [] => True
  | i0, a :: t => P i0 a ∧ AllPos P (i0 + 1) t

instance instDecAllPos {α : Type} (P : Nat → α → Prop) [∀ i a, Decidable (P i a)] :
    (i0 : Nat) → (l : List α) → Decidable (AllPos P i0 l)
  | _, [] => .isTrue trivial
  | i0, a :: t =>
    have : Decidable (AllPos P (i0 + 1) t) := instDecAllPos P (i0 + 1) t
    inferInstanceAs (Decidable (P i0 a ∧ AllPos P (i0 + 1) t))

theorem allPos_iff {α : Type} (P : Nat → α → Prop) (i0 : Nat) (l : List α) :
    AllPos P i0 l ↔ ∀ j a, l.get? j = some a → P (i0 + j) a := by
  induction l generalizing i0 with
  | nil => simp [AllPos]
  | cons b t ih =>
    simp only [AllPos, ih]
    constructor
    · rintro ⟨hb, ht⟩ j a hj
      cases j with
      | zero =>
        obtain rfl : b = a := by simpa using hj
        simpa using hb
      | succ j =>
        have h2 := ht j a hj
        have he : i0 + 1 + j = i0 + (j + 1) := by omega
        rw [he] at h2
        exact h2
    · intro h
      constructor
      · simpa using h 0 b rfl
      · intro j a hj
        have h2 := h (j + 1) a hj
        have he : i0 + (j + 1) = i0 + 1 + j := by omega
        rw [he] at h2
        exact h2

/-- Free-list sanity for the slab: reclaimed slot ids are distinct,
in range, and vacant. -/
def Slab.WF (s : Slab) : Prop :=
  s.free.Nodup ∧ ∀ k ∈ s.free, k < s.entries.length ∧ s.entries.getD k none = none

instance (s : Slab) : Decidable s.WF :=
  inferInstanceAs (Decidable (_ ∧ _))

/-- Validity of one field's lookup table against the store: keys strictly
sorted, every referenced slot occupied by a record whose field `i` equals
the key, and (non-unique) every group non-empty and strictly sorted. -/
def FieldIndex.WFat (st : Slab) (i : Nat) : FieldIndex → Prop
  | .unique m => List.Pairwise (· < ·) (m.map Prod.fst) ∧
      ∀ p ∈ m, (st.get p.2).map (fun r => r.getD i 0) = some p.1
  | .nonUnique m => List.Pairwise (· < ·) (m.map Prod.fst) ∧
      ∀ p ∈ m, p.2 ≠ [] ∧ List.Pairwise (· < ·) p.2 ∧
        ∀ q ∈ p.2, (st.get q).map (fun r => r.getD i 0) = some p.1
  | .unindexed => True

instance instDecWFat (st : Slab) (i : Nat) :
    (f : FieldIndex) → Decidable (f.WFat st i)
  | .unique m => inferInstanceAs (Decidable (_ ∧ _))
  | .nonUnique m => inferInstanceAs (Decidable (_ ∧ _))
  | .unindexed => .isTrue trivial

/-- One field's completeness: the record at occupied slot `q` is reachable
through that field's lookup table. -/
def FieldIndex.complAt (i : Nat) (r : Record) (q : Nat) : FieldIndex → Prop
  | .unique m => lookupU m (r.getD i 0) = some q
  | .nonUnique m => q ∈ (getNU m (r.getD i 0)).getD []
  | .unindexed => True

instance instDecComplAt (i : Nat) (r : Record) (q : Nat) :
    (f : FieldIndex) → Decidable (f.complAt i r q)
  | .unique m => inferInstanceAs (Decidable (_ = _))
  | .nonUnique m => inferInstanceAs (Decidable (_ ∈ _))
  | .unindexed => .isTrue trivial

/-- Validity of every lookup table against the store, plus slab sanity. -/
def MultiIndexMap.WF (c : MultiIndexMap) : Prop :=
  c._store.WF ∧ AllPos (fun i f => f.WFat c._store i) 0 c.indices

instance (c : MultiIndexMap) : Decidable c.WF :=
  inferInstanceAs (Decidable (_ ∧ _))

/-- Completeness (invariant I1's forward half): every occupied slot is
recorded in every field's lookup table under that record's field value. -/
def MultiIndexMap.Complete (c : MultiIndexMap) : Prop :=
  AllPos (fun q e => ∀ r ∈ e.toList,
    AllPos (fun i f => FieldIndex.complAt i r q f) 0 c.indices) 0 c._store.entries

instance (c : MultiIndexMap) : Decidable c.Complete :=
  inferInstanceAs (Decidable (AllPos _ _ _))

/-- Full internal invariant bundle. -/
def MultiIndexMap.Inv (c : MultiIndexMap) : Prop := c.WF ∧ c.Complete

instance (c : MultiIndexMap) : Decidable c.Inv :=
  inferInstanceAs (Decidable (_ ∧ _))

/-- Invariant I3 at one field: every key of a non-unique table maps to a
non-empty slot set. -/
def FieldIndex.I3 : FieldIndex → Prop
  | .nonUnique m => ∀ p ∈ m, p.2 ≠ []
  | _ => True

instance instDecI3 : (f : FieldIndex) → Decidable f.I3
  | .unique _ => .isTrue trivial
  | .nonUnique m => inferInstanceAs (Decidable (∀ p ∈ m, p.2 ≠ []))
  | .unindexed => .isTrue trivial

/-- Invariant I3 for the whole container. -/
def MultiIndexMap.I3 (c : MultiIndexMap) : Prop := ∀ f ∈ c.indices, f.I3

instance (c : MultiIndexMap) : Decidable c.I3 :=
  inferInstanceAs (Decidable (∀ f ∈ c.indices, f.I3))

/-- One successful public mutating operation of the generated container
(a panicking call does not return and so produces no step). -/
inductive Step : MultiIndexMap → MultiIndexMap → Prop
  | ins {c c' : MultiIndexMap} {r : Record} :
      c.insert r = .ok c' → Step c c'
  | remU {c c' : MultiIndexMap} {i k : Nat} {out : Option Record} :
      c.removeByUnique i k = .ok (out, c') → Step c c'
  | remNU {c c' : MultiIndexMap} {i k : Nat} {out : List Record} :
      c.removeByNonUnique i k = .ok (out, c') → Step c c'
  | modU {c c' : MultiIndexMap} {i k : Nat} {f : Record → Record} {out : Option Record} :
      c.modifyByUnique i k f = .ok (out, c') → Step c c'
  | modNU {c c' : MultiIndexMap} {i k : Nat} {f : Record → Record} {out : List Record} :
      c.modifyByNonUnique i k f = .ok (out, c') → Step c c'
  | clr {c : MultiIndexMap} : Step c c.clear

/-- An initial container: empty store, every lookup table empty. -/
def FieldIndex.isEmptyIdx : FieldIndex → Prop
  | .unique m => m = []
  | .nonUnique m => m = []
  | .unindexed => True

instance instDecEmptyIdx : (f : FieldIndex) → Decidable f.isEmptyIdx
  | .unique m => inferInstanceAs (Decidable (m = []))
  | .nonUnique m => inferInstanceAs (Decidable (m = []))
  | .unindexed => .isTrue trivial

/-- Container states reachable from an initial container by successful
public operations. -/
inductive Reaches : MultiIndexMap → Prop
  | start (fs : List FieldIndex) :
      (∀ f ∈ fs, f.isEmptyIdx) → Reaches ⟨⟨[], []⟩, fs⟩
  | step {c c' : MultiIndexMap} : Reaches c → Step c c' → Reaches c'

/-! ### Preservation of invariant I3 (claim C2 machinery) -/

theorem setInsert_ne_nil (l : List Nat) (x : Nat) : setInsert l x ≠ [] := by
  cases l with
  | nil => simp [setInsert]
  | cons a t =>
    simp only [setInsert]
    by_cases h1 : x < a
    · simp [h1]
    · by_cases h2 : x = a <;> simp [h1, h2]

theorem setInsert_mem (l : List Nat) (x : Nat) : x ∈ setInsert l x := by
  induction l with
  | nil => simp [setInsert]
  | cons a t ih =>
    simp only [setInsert]
    by_cases h1 : x < a
    · simp [h1]
    · by_cases h2 : x = a <;> simp [h1, h2, ih]

theorem entryInsertNU_I3 {m : NUM} (h : ∀ p ∈ m, p.2 ≠ []) (k x : Nat) :
    ∀ p ∈ entryInsertNU m k x, p.2 ≠ [] := by
  induction m with
  | nil =>
    intro p hp
    simp only [entryInsertNU, List.mem_singleton] at hp
    simp [hp]
  | cons b t ih =>
    obtain ⟨k', l⟩ := b
    intro p hp
    simp only [entryInsertNU] at hp
    by_cases h1 : k < k'
    · simp only [if_pos h1] at hp
      rcases List.mem_cons.1 hp with rfl | hp
      · simp
      · exact h p hp
    · by_cases h2 : k = k'
      · simp only [if_neg h1, if_pos h2] at hp
        rcases List.mem_cons.1 hp with rfl | hp
        · exact setInsert_ne_nil l x
        · exact h p (List.mem_cons_of_mem _ hp)
      · simp only [if_neg h1, if_neg h2] at hp
        rcases List.mem_cons.1 hp with rfl | hp
        · exact h _ (List.mem_cons_self _ _)
        · exact ih (fun q hq => h q (List.mem_cons_of_mem _ hq)) p hp

theorem removeKeyNU_fst_subset {m : NUM} (k : Nat) :
    ∀ p ∈ (removeKeyNU m k).1, p ∈ m := by
  induction m with
  | nil => simp [removeKeyNU]
  | cons b t ih =>
    obtain ⟨k', l⟩ := b
    intro p hp
    simp only [removeKeyNU] at hp
    by_cases h1 : k = k'
    · simp only [if_pos h1] at hp
      exact List.mem_cons_of_mem _ hp
    · simp only [if_neg h1] at hp
      rcases List.mem_cons.1 hp with rfl | hp
      · exact List.mem_cons_self _ _
      · exact List.mem_cons_of_mem _ (ih p hp)

theorem setValNU_I3 {m : NUM} (h : ∀ p ∈ m, p.2 ≠ []) {nl : List Nat}
    (hnl : nl ≠ []) (k : Nat) : ∀ p ∈ setValNU m k nl, p.2 ≠ [] := by
  induction m with
  | nil => simp [setValNU]
  | cons b t ih =>
    obtain ⟨k', l⟩ := b
    intro p hp
    simp only [setValNU] at hp
    by_cases h1 : k = k'
    · simp only [if_pos h1] at hp
      rcases List.mem_cons.1 hp with rfl | hp
      · exact hnl
      · exact h p (List.mem_cons_of_mem _ hp)
    · simp only [if_neg h1] at hp
      rcases List.mem_cons.1 hp with rfl | hp
      · exact h _ (List.mem_cons_self _ _)
      · exact ih (fun q hq => h q (List.mem_cons_of_mem _ hq)) p hp

theorem erase_ne_nil_of_one_lt {l : List Nat} {x : Nat} (hlen : 1 < l.length)
    (hx : x ∈ l) : l.erase x ≠ [] := by
  apply List.length_pos.1
  rw [List.length_erase_of_mem hx]
  omega

theorem removeNUAt_I3 {m m' : NUM} {k idx : Nat}
    (h : removeNUAt m k idx = .ok m') (h3 : ∀ p ∈ m, p.2 ≠ []) :
    ∀ p ∈ m', p.2 ≠ [] := by
  unfold removeNUAt at h
  cases hg : getNU m k with
  | none => rw [hg] at h; cases h; exact h3
  | some elems =>
    rw [hg] at h
    by_cases h1 : 1 < elems.length
    · simp only [if_pos h1] at h
      by_cases h2 : idx ∈ elems
      · simp only [if_pos h2] at h
        cases h
        exact setValNU_I3 h3 (erase_ne_nil_of_one_lt h1 h2) k
      · simp only [if_neg h2] at h
        cases h
    · simp only [if_neg h1] at h
      cases h
      exact fun p hp => h3 p (removeKeyNU_fst_subset k p hp)

theorem modifyNUStep_I3 {m m' : NUM} {oldK newK idx : Nat}
    (h : modifyNUStep m oldK newK idx = .ok m') (h3 : ∀ p ∈ m, p.2 ≠ []) :
    ∀ p ∈ m', p.2 ≠ [] := by
  unfold modifyNUStep at h
  cases hg : getNU m oldK with
  | none => rw [hg] at h; cases h
  | some idxs =>
    rw [hg] at h
    by_cases h1 : 1 < idxs.length
    · simp only [if_pos h1] at h
      by_cases h2 : idx ∈ idxs
      · simp only [if_pos h2] at h
        cases h
        exact entryInsertNU_I3 (setValNU_I3 h3 (erase_ne_nil_of_one_lt h1 h2) oldK) newK idx
      · simp only [if_neg h2] at h
        cases h
    · simp only [if_neg h1] at h
      cases h
      exact entryInsertNU_I3 (fun p hp => h3 p (removeKeyNU_fst_subset oldK p hp)) newK idx

theorem insStepE_I3 {r : Record} {s i : Nat} {f f' : FieldIndex}
    (h : insStepE r s i f = .ok f') (h3 : f.I3) : f'.I3 := by
  cases f with
  | unique m =>
    simp only [insStepE] at h
    split at h
    · cases h
    · cases h; trivial
  | nonUnique m =>
    simp only [insStepE] at h
    cases h
    exact entryInsertNU_I3 h3 _ _
  | unindexed => cases h; trivial

theorem removeStepF_I3 {rO : Record} {idx i : Nat} {f f' : FieldIndex}
    (h : removeStepF rO idx i f = .ok f') (h3 : f.I3) : f'.I3 := by
  cases f with
  | unique m => cases h; trivial
  | nonUnique m =>
    simp only [removeStepF] at h
    cases hx : removeNUAt m (rO.getD i 0) idx with
    | error e => rw [hx] at h; cases h
    | ok m2 =>
      rw [hx] at h
      cases h
      exact removeNUAt_I3 hx h3
  | unindexed => cases h; trivial

theorem modifyStepF_I3 {rN rO : Record} {idx i : Nat} {f f' : FieldIndex}
    (h : modifyStepF rN rO idx i f = .ok f') (h3 : f.I3) : f'.I3 := by
  cases f with
  | unique m =>
    simp only [modifyStepF] at h
    split at h
    · cases hx : modifyUStep m (rO.getD i 0) (rN.getD i 0) with
      | error e => rw [hx] at h; cases h
      | ok m2 => rw [hx] at h; cases h; trivial
    · cases h; trivial
  | nonUnique m =>
    simp only [modifyStepF] at h
    split at h
    · cases hx : modifyNUStep m (rO.getD i 0) (rN.getD i 0) idx with
      | error e => rw [hx] at h; cases h
      | ok m2 =>
        rw [hx] at h
        cases h
        exact modifyNUStep_I3 hx h3
    · cases h; exact h3
  | unindexed => cases h; trivial

theorem insertSteps_I3 {r : Record} {s : Nat} {fs : List FieldIndex} :
    ∀ {i0 : Nat} {fs' : List FieldIndex}, insertSteps r s i0 fs = .ok fs' →
      (∀ f ∈ fs, f.I3) → ∀ f ∈ fs', f.I3 := by
  induction fs with
  | nil => intro i0 fs' h _; cases h; simp
  | cons b t ih =>
    intro i0 fs' h hall
    simp only [insertSteps] at h
    cases hb : insStepE r s i0 b with
    | error e =>
      obtain ⟨msg, f1⟩ := e
      rw [hb] at h
      cases h
    | ok f1 =>
      rw [hb] at h
      cases ht : insertSteps r s (i0 + 1) t with
      | error e =>
        obtain ⟨msg, t1⟩ := e
        rw [ht] at h
        cases h
      | ok t1 =>
        rw [ht] at h
        cases h
        intro f hf
        rcases List.mem_cons.1 hf with rfl | hf
        · exact insStepE_I3 hb (hall b (List.mem_cons_self _ _))
        · exact ih ht (fun g hg => hall g (List.mem_cons_of_mem _ hg)) f hf

theorem removeSteps_I3 {rO : Record} {idx : Nat} {fs : List FieldIndex} :
    ∀ {i0 : Nat} {fs' : List FieldIndex}, removeSteps rO idx i0 fs = .ok fs' →
      (∀ f ∈ fs, f.I3) → ∀ f ∈ fs', f.I3 := by
  induction fs with
  | nil => intro i0 fs' h _; cases h; simp
  | cons b t ih =>
    intro i0 fs' h hall
    simp only [removeSteps] at h
    cases hb : removeStepF rO idx i0 b with
    | error e => rw [hb] at h; cases h
    | ok f1 =>
      rw [hb] at h
      cases ht : removeSteps rO idx (i0 + 1) t with
      | error e => rw [ht] at h; cases h
      | ok t1 =>
        rw [ht] at h
        cases h
        intro f hf
        rcases List.mem_cons.1 hf with rfl | hf
        · exact removeStepF_I3 hb (hall b (List.mem_cons_self _ _))
        · exact ih ht (fun g hg => hall g (List.mem_cons_of_mem _ hg)) f hf

theorem modifySteps_I3 {rN rO : Record} {idx : Nat} {fs : List FieldIndex} :
    ∀ {i0 : Nat} {fs' : List FieldIndex}, modifySteps rN rO idx i0 fs = .ok fs' →
      (∀ f ∈ fs, f.I3) → ∀ f ∈ fs', f.I3 := by
  induction fs with
  | nil => intro i0 fs' h _; cases h; simp
  | cons b t ih =>
    intro i0 fs' h hall
    simp only [modifySteps] at h
    cases hb : modifyStepF rN rO idx i0 b with
    | error e => rw [hb] at h; cases h
    | ok f1 =>
      rw [hb] at h
      cases ht : modifySteps rN rO idx (i0 + 1) t with
      | error e => rw [ht] at h; cases h
      | ok t1 =>
        rw [ht] at h
        cases h
        intro f hf
        rcases List.mem_cons.1 hf with rfl | hf
        · exact modifyStepF_I3 hb (hall b (List.mem_cons_self _ _))
        · exact ih ht (fun g hg => hall g (List.mem_cons_of_mem _ hg)) f hf

theorem removeLoop_I3 {idxs : List Nat} :
    ∀ {st : Slab} {fs : List FieldIndex} {out : List Record × Slab × List FieldIndex},
      removeLoop idxs st fs = .ok out → (∀ f ∈ fs, f.I3) → ∀ f ∈ out.2.2, f.I3 := by
  induction idxs with
  | nil => intro st fs out h hall; cases h; exact hall
  | cons idx rest ih =>
    intro st fs out h hall
    simp only [removeLoop] at h
    split at h
    · cases h
    · rename_i rO st1 heq
      split at h
      · cases h
      · rename_i fs1 hs
        cases hl : removeLoop rest st1 fs1 with
        | error e => rw [hl] at h; simp only [Except.map] at h; cases h
        | ok out1 =>
          rw [hl] at h
          simp only [Except.map] at h
          cases h
          show ∀ f ∈ out1.2.2, f.I3
          exact ih hl (removeSteps_I3 hs hall)

theorem modifyLoopNU_I3 {f : Record → Record} {idxs : List Nat} :
    ∀ {last : Nat} {rem : List Nat} {st : Slab} {fs : List FieldIndex}
      {acc : List Record} {out : List Record × Slab × List FieldIndex},
      modifyLoopNU f idxs last rem st fs acc = .ok out →
      (∀ g ∈ fs, g.I3) → ∀ g ∈ out.2.2, g.I3 := by
  induction idxs with
  | nil => intro last rem st fs acc out h hall; cases h; exact hall
  | cons idx rest ih =>
    intro last rem st fs acc out h hall
    simp only [modifyLoopNU] at h
    split at h
    · cases h
    · rename_i pos hn
      split at h
      · cases h
      · rename_i rO hg
        split at h
        · cases h
        · rename_i fs1 hs
          exact ih h (modifySteps_I3 hs hall)

theorem insert_I3 {c c' : MultiIndexMap} {r : Record}
    (h : c.insert r = .ok c') (h3 : c.I3) : c'.I3 := by
  simp only [MultiIndexMap.insert] at h
  split at h
  · rename_i fs hs
    cases h
    exact insertSteps_I3 hs h3
  · cases h

theorem set_I3 {fs : List FieldIndex} {i : Nat} {x : FieldIndex}
    (h3 : ∀ f ∈ fs, f.I3) (hx : x.I3) : ∀ f ∈ fs.set i x, f.I3 := by
  intro f hf
  rcases List.mem_or_eq_of_mem_set hf with hf | rfl
  · exact h3 f hf
  · exact hx

theorem removeByUnique_I3 {c c' : MultiIndexMap} {i k : Nat} {out : Option Record}
    (h : c.removeByUnique i k = .ok (out, c')) (h3 : c.I3) : c'.I3 := by
  simp only [MultiIndexMap.removeByUnique] at h
  split at h
  · split at h
    · cases h; exact h3
    · rename_i m1 idx hr
      split at h
      · cases h
      · rename_i rO st1 hsr
        split at h
        · cases h
        · rename_i fs2 hs
          cases h
          exact removeSteps_I3 hs (set_I3 h3 trivial)
  · cases h

theorem nonUnique_I3_of_mem {c : MultiIndexMap} {i : Nat} {m : NUM}
    (h3 : c.I3) (hi : c.indices.get? i = some (.nonUnique m)) :
    ∀ p ∈ m, p.2 ≠ [] :=
  h3 _ (List.get?_mem hi)

theorem removeByNonUnique_I3 {c c' : MultiIndexMap} {i k : Nat} {out : List Record}
    (h : c.removeByNonUnique i k = .ok (out, c')) (h3 : c.I3) : c'.I3 := by
  simp only [MultiIndexMap.removeByNonUnique] at h
  split at h
  · rename_i m hi
    split at h
    · cases h; exact h3
    · rename_i m1 idxs hr
      cases hl : removeLoop idxs c._store (c.indices.set i (.nonUnique m1)) with
      | error e => rw [hl] at h; simp only [Except.map] at h; cases h
      | ok out1 =>
        rw [hl] at h
        simp only [Except.map] at h
        cases h
        have hm1 : (FieldIndex.nonUnique m1).I3 := by
          have hall := nonUnique_I3_of_mem h3 hi
          have hm1e : m1 = (removeKeyNU m k).1 := by rw [hr]
          intro p hp
          exact hall p (removeKeyNU_fst_subset k p (hm1e ▸ hp))
        exact removeLoop_I3 hl (set_I3 h3 hm1)
  · cases h

theorem modifyByUnique_I3 {c c' : MultiIndexMap} {i k : Nat} {f : Record → Record}
    {out : Option Record} (h : c.modifyByUnique i k f = .ok (out, c')) (h3 : c.I3) :
    c'.I3 := by
  simp only [MultiIndexMap.modifyByUnique] at h
  split at h
  · split at h
    · cases h; exact h3
    · rename_i idx hl
      split at h
      · cases h
      · rename_i rO hg
        split at h
        · cases h
        · rename_i fs1 hs
          cases h
          exact modifySteps_I3 hs h3
  · cases h

theorem modifyByNonUnique_I3 {c c' : MultiIndexMap} {i k : Nat} {f : Record → Record}
    {out : List Record} (h : c.modifyByNonUnique i k f = .ok (out, c')) (h3 : c.I3) :
    c'.I3 := by
  simp only [MultiIndexMap.modifyByNonUnique] at h
  split at h
  · rename_i m hi
    cases hl : modifyLoopNU f ((getNU m k).getD []) 0 c._store.occPositions c._store c.indices [] with
    | error e => rw [hl] at h; simp only [Except.map] at h; cases h
    | ok out1 =>
      rw [hl] at h
      simp only [Except.map] at h
      cases h
      exact modifyLoopNU_I3 hl h3
  · cases h

theorem clear_I3 (c : MultiIndexMap) : c.clear.I3 := by
  intro f hf
  simp only [MultiIndexMap.clear, List.mem_map] at hf
  obtain ⟨g, _, rfl⟩ := hf
  cases g <;> simp [FieldIndex.clearIdx, FieldIndex.I3]

/-- C2: after every successful public operation, and hence in every
container state reachable by any sequence of insert, remove_by_field,
modify_by_field, and clear operations, every key present in every
non-unique index maps to a non-empty set of slot ids. -/
theorem C2_i3_holds_on_reachable (c : MultiIndexMap) (h : Reaches c) :
    c.I3 := by
  induction h with
  | start fs hemp =>
    intro f hf
    have he := hemp f hf
    cases f with
    | unique m => trivial
    | nonUnique m =>
      have hm : m = [] := he
      subst hm
      intro p hp
      cases hp
    | unindexed => trivial
  | step hr hst ih =>
    cases hst with
    | ins h => exact insert_I3 h ih
    | remU h => exact removeByUnique_I3 h ih
    | remNU h => exact removeByNonUnique_I3 h ih
    | modU h => exact modifyByUnique_I3 h ih
    | modNU h => exact modifyByNonUnique_I3 h ih
    | clr => exact clear_I3 _

/-- Witness for C2: a concrete reachable container satisfies I3. -/
theorem C2_i3_holds_on_reachable_witness :
    MultiIndexMap.I3
      ⟨⟨[], []⟩, [FieldIndex.unique [], FieldIndex.nonUnique [], FieldIndex.unindexed]⟩ :=
  C2_i3_holds_on_reachable _ (Reaches.start _ (by decide))

/-! ### Lookup-table and slab lemmas -/

theorem lookupU_insertU_self (m : UM) (k v : Nat) :
    lookupU (insertU m k v).1 k = some v := by
  induction m with
  | nil => simp [insertU, lookupU]
  | cons b t ih =>
    obtain ⟨k', v'⟩ := b
    simp only [insertU]
    by_cases h1 : k < k'
    · simp [h1, lookupU]
    · by_cases h2 : k = k'
      · simp [h1, h2, lookupU]
      · simp only [if_neg h1, if_neg h2]
        simp only [lookupU, if_neg h2]
        exact ih

theorem lookupU_insertU_ne (m : UM) {k q : Nat} (h : q ≠ k) (v : Nat) :
    lookupU (insertU m k v).1 q = lookupU m q := by
  induction m with
  | nil => simp [insertU, lookupU, h]
  | cons b t ih =>
    obtain ⟨k', v'⟩ := b
    simp only [insertU]
    by_cases h1 : k < k'
    · simp [lookupU, h1, h]
    · by_cases h2 : k = k'
      · subst h2
        simp only [if_neg h1, if_pos rfl]
        simp [lookupU, h]
      · simp only [if_neg h1, if_neg h2]
        by_cases h3 : q = k'
        · simp [lookupU, h3]
        · simp [lookupU, h3, ih]

theorem removeU_snd (m : UM) (k : Nat) : (removeU m k).2 = lookupU m k := by
  induction m with
  | nil => simp [removeU, lookupU]
  | cons b t ih =>
    obtain ⟨k', v'⟩ := b
    simp only [removeU, lookupU]
    by_cases h1 : k = k' <;> simp [h1, ih]

theorem lookupU_removeU_ne (m : UM) {k q : Nat} (h : q ≠ k) :
    lookupU (removeU m k).1 q = lookupU m q := by
  induction m with
  | nil => simp [removeU]
  | cons b t ih =>
    obtain ⟨k', v'⟩ := b
    simp only [removeU]
    by_cases h1 : k = k'
    · subst h1
      simp [lookupU, h]
    · by_cases h2 : q = k' <;> simp [lookupU, h1, h2, ih]

theorem lookupU_eq_none (m : UM) {k : Nat} (h : ∀ p ∈ m, p.1 ≠ k) :
    lookupU m k = none := by
  induction m with
  | nil => rfl
  | cons b t ih =>
    obtain ⟨k', v'⟩ := b
    have hne : k ≠ k' := fun he => (h _ (List.mem_cons_self _ _)) he.symm
    simp only [lookupU, if_neg hne]
    exact ih (fun p hp => h p (List.mem_cons_of_mem _ hp))

theorem lookupU_removeU_self (m : UM) (k : Nat)
    (hs : List.Pairwise (· < ·) (m.map Prod.fst)) :
    lookupU (removeU m k).1 k = none := by
  induction m with
  | nil => rfl
  | cons b t ih =>
    obtain ⟨k', v'⟩ := b
    simp only [List.map_cons, List.pairwise_cons] at hs
    obtain ⟨hlt, hst⟩ := hs
    simp only [removeU]
    by_cases h1 : k = k'
    · subst h1
      simp only [if_pos rfl]
      exact lookupU_eq_none t (fun p hp => by
        have := hlt p.1 (List.mem_map_of_mem Prod.fst hp)
        omega)
    · simp only [if_neg h1, lookupU, if_neg h1]
      exact ih hst

theorem getNU_eq_none (m : NUM) {k : Nat} (h : ∀ p ∈ m, p.1 ≠ k) :
    getNU m k = none := by
  induction m with
  | nil => rfl
  | cons b t ih =>
    obtain ⟨k', l⟩ := b
    have hne : k ≠ k' := fun he => (h _ (List.mem_cons_self _ _)) he.symm
    simp only [getNU, if_neg hne]
    exact ih (fun p hp => h p (List.mem_cons_of_mem _ hp))

theorem getNU_entryInsertNU_self (m : NUM) (k x : Nat)
    (hs : List.Pairwise (· < ·) (m.map Prod.fst)) :
    getNU (entryInsertNU m k x) k = some (setInsert ((getNU m k).getD []) x) := by
  induction m with
  | nil => simp [entryInsertNU, getNU, setInsert]
  | cons b t ih =>
    obtain ⟨k', l⟩ := b
    simp only [List.map_cons, List.pairwise_cons] at hs
    obtain ⟨hlt, hst⟩ := hs
    simp only [entryInsertNU]
    by_cases h1 : k < k'
    · have hn : getNU ((k', l) :: t) k = none := by
        apply getNU_eq_none
        intro p hp
        rcases List.mem_cons.1 hp with rfl | hp
        · omega
        · have := hlt p.1 (List.mem_map_of_mem Prod.fst hp)
          omega
      rw [if_pos h1, hn]
      simp [getNU, setInsert]
    · by_cases h2 : k = k'
      · subst h2
        simp only [if_neg h1, if_pos rfl, getNU, if_pos rfl]
        rfl
      · simp only [if_neg h1, if_neg h2, getNU, if_neg h2]
        exact ih hst

theorem getNU_entryInsertNU_ne (m : NUM) {k q : Nat} (h : q ≠ k) (x : Nat) :
    getNU (entryInsertNU m k x) q = getNU m q := by
  induction m with
  | nil => simp [entryInsertNU, getNU, h]
  | cons b t ih =>
    obtain ⟨k', l⟩ := b
    simp only [entryInsertNU]
    by_cases h1 : k < k'
    · simp [h1, getNU, h]
    · by_cases h2 : k = k'
      · subst h2
        simp only [if_neg h1, if_pos rfl]
        simp [getNU, h]
      · simp only [if_neg h1, if_neg h2]
        by_cases h3 : q = k'
        · simp [getNU, h3]
        · simp [getNU, h3, ih]

theorem removeKeyNU_snd (m : NUM) (k : Nat) : (removeKeyNU m k).2 = getNU m k := by
  induction m with
  | nil => simp [removeKeyNU, getNU]
  | cons b t ih =>
    obtain ⟨k', l⟩ := b
    simp only [removeKeyNU, getNU]
    by_cases h1 : k = k' <;> simp [h1, ih]

theorem getNU_removeKeyNU_ne (m : NUM) {k q : Nat} (h : q ≠ k) :
    getNU (removeKeyNU m k).1 q = getNU m q := by
  induction m with
  | nil => simp [removeKeyNU]
  | cons b t ih =>
    obtain ⟨k', l⟩ := b
    simp only [removeKeyNU]
    by_cases h1 : k = k'
    · subst h1
      simp [getNU, h]
    · by_cases h2 : q = k' <;> simp [getNU, h1, h2, ih]

theorem getNU_removeKeyNU_self (m : NUM) (k : Nat)
    (hs : List.Pairwise (· < ·) (m.map Prod.fst)) :
    getNU (removeKeyNU m k).1 k = none := by
  induction m with
  | nil => rfl
  | cons b t ih =>
    obtain ⟨k', l⟩ := b
    simp only [List.map_cons, List.pairwise_cons] at hs
    obtain ⟨hlt, hst⟩ := hs
    simp only [removeKeyNU]
    by_cases h1 : k = k'
    · subst h1
      simp only [if_pos rfl]
      exact getNU_eq_none t (fun p hp => by
        have := hlt p.1 (List.mem_map_of_mem Prod.fst hp)
        omega)
    · simp only [if_neg h1, getNU, if_neg h1]
      exact ih hst

theorem getNU_setValNU_self (m : NUM) {k : Nat} {l : List Nat}
    (h : getNU m k = some l) (nl : List Nat) :
    getNU (setValNU m k nl) k = some nl := by
  induction m with
  | nil => cases h
  | cons b t ih =>
    obtain ⟨k', l'⟩ := b
    simp only [setValNU]
    by_cases h1 : k = k'
    · simp [getNU, h1]
    · simp only [getNU, if_neg h1] at h
      simp only [if_neg h1, getNU, if_neg h1]
      exact ih h

theorem getNU_setValNU_ne (m : NUM) {k q : Nat} (h : q ≠ k) (nl : List Nat) :
    getNU (setValNU m k nl) q = getNU m q := by
  induction m with
  | nil => simp [setValNU]
  | cons b t ih =>
    obtain ⟨k', l'⟩ := b
    simp only [setValNU]
    by_cases h1 : k = k'
    · subst h1
      simp [getNU, h]
    · by_cases h2 : q = k' <;> simp [getNU, h1, h2, ih]

theorem mem_setInsert_iff (l : List Nat) (x y : Nat) :
    y ∈ setInsert l x ↔ y = x ∨ y ∈ l := by
  induction l with
  | nil => simp [setInsert]
  | cons a t ih =>
    simp only [setInsert]
    by_cases h1 : x < a
    · simp [h1]
    · by_cases h2 : x = a
      · subst h2
        simp [h1]
      · simp only [if_neg h1, if_neg h2, List.mem_cons, ih]
        tauto

theorem setInsert_pairwise {l : List Nat} (hs : List.Pairwise (· < ·) l) (x : Nat) :
    List.Pairwise (· < ·) (setInsert l x) := by
  induction l with
  | nil => simp [setInsert]
  | cons a t ih =>
    simp only [List.pairwise_cons] at hs
    obtain ⟨hlt, hst⟩ := hs
    simp only [setInsert]
    by_cases h1 : x < a
    · simp only [if_pos h1]
      refine List.pairwise_cons.2 ⟨?_, List.pairwise_cons.2 ⟨hlt, hst⟩⟩
      intro b hb
      rcases List.mem_cons.1 hb with rfl | hb
      · exact h1
      · have := hlt b hb
        omega
    · by_cases h2 : x = a
      · subst h2
        simp only [if_neg h1, if_pos rfl]
        exact List.pairwise_cons.2 ⟨hlt, hst⟩
      · simp only [if_neg h1, if_neg h2]
        refine List.pairwise_cons.2 ⟨?_, ih hst⟩
        intro b hb
        rcases (mem_setInsert_iff t x b).1 hb with rfl | hb
        · omega
        · exact hlt b hb

theorem insertU_keys_sub (m : UM) (k v : Nat) :
    ∀ q ∈ (insertU m k v).1.map Prod.fst, q = k ∨ q ∈ m.map Prod.fst := by
  induction m with
  | nil => simp [insertU]
  | cons b t ih =>
    obtain ⟨k', v'⟩ := b
    simp only [insertU]
    by_cases h1 : k < k'
    · simp only [if_pos h1]
      intro q hq
      simpa using hq
    · by_cases h2 : k = k'
      · simp only [if_neg h1, if_pos h2]
        intro q hq
        simp only [List.map_cons, List.mem_cons] at hq ⊢
        tauto
      · simp only [if_neg h1, if_neg h2]
        intro q hq
        simp only [List.map_cons, List.mem_cons] at hq ⊢
        rcases hq with rfl | hq
        · tauto
        · rcases ih q hq with rfl | hq <;> tauto

theorem insertU_pairwise {m : UM} (hs : List.Pairwise (· < ·) (m.map Prod.fst))
    (k v : Nat) : List.Pairwise (· < ·) ((insertU m k v).1.map Prod.fst) := by
  induction m with
  | nil => simp [insertU]
  | cons b t ih =>
    obtain ⟨k', v'⟩ := b
    simp only [List.map_cons, List.pairwise_cons] at hs
    obtain ⟨hlt, hst⟩ := hs
    simp only [insertU]
    by_cases h1 : k < k'
    · simp only [if_pos h1, List.map_cons]
      refine List.pairwise_cons.2 ⟨?_, List.pairwise_cons.2 ⟨hlt, hst⟩⟩
      intro b hb
      simp only [List.mem_cons] at hb
      rcases hb with rfl | hb
      · exact h1
      · have := hlt b hb
        omega
    · by_cases h2 : k = k'
      · subst h2
        simp only [if_neg h1, if_pos rfl, List.map_cons]
        exact List.pairwise_cons.2 ⟨hlt, hst⟩
      · simp only [if_neg h1, if_neg h2, List.map_cons]
        refine List.pairwise_cons.2 ⟨?_, ih hst⟩
        intro b hb
        rcases insertU_keys_sub t k v b hb with rfl | hb
        · omega
        · exact hlt b hb

theorem removeU_fst_sublist (m : UM) (k : Nat) : (removeU m k).1.Sublist m := by
  induction m with
  | nil => simp [removeU]
  | cons b t ih =>
    obtain ⟨k', v'⟩ := b
    simp only [removeU]
    by_cases h1 : k = k'
    · simp only [if_pos h1]
      exact List.Sublist.cons _ (List.Sublist.refl _)
    · simp only [if_neg h1]
      exact List.Sublist.cons₂ _ ih

theorem removeKeyNU_fst_sublist (m : NUM) (k : Nat) :
    (removeKeyNU m k).1.Sublist m := by
  induction m with
  | nil => simp [removeKeyNU]
  | cons b t ih =>
    obtain ⟨k', l⟩ := b
    simp only [removeKeyNU]
    by_cases h1 : k = k'
    · simp only [if_pos h1]
      exact List.Sublist.cons _ (List.Sublist.refl _)
    · simp only [if_neg h1]
      exact List.Sublist.cons₂ _ ih

theorem setValNU_keys (m : NUM) (k : Nat) (nl : List Nat) :
    (setValNU m k nl).map Prod.fst = m.map Prod.fst := by
  induction m with
  | nil => rfl
  | cons b t ih =>
    obtain ⟨k', l⟩ := b
    simp only [setValNU]
    by_cases h1 : k = k' <;> simp [h1, ih]

theorem entryInsertNU_keys_sub (m : NUM) (k x : Nat) :
    ∀ q ∈ (entryInsertNU m k x).map Prod.fst, q = k ∨ q ∈ m.map Prod.fst := by
  induction m with
  | nil => simp [entryInsertNU]
  | cons b t ih =>
    obtain ⟨k', l⟩ := b
    simp only [entryInsertNU]
    by_cases h1 : k < k'
    · simp only [if_pos h1]
      intro q hq
      simpa using hq
    · by_cases h2 : k = k'
      · simp only [if_neg h1, if_pos h2]
        intro q hq
        simp only [List.map_cons, List.mem_cons] at hq ⊢
        tauto
      · simp only [if_neg h1, if_neg h2]
        intro q hq
        simp only [List.map_cons, List.mem_cons] at hq ⊢
        rcases hq with rfl | hq
        · tauto
        · rcases ih q hq with rfl | hq <;> tauto

theorem entryInsertNU_pairwise {m : NUM}
    (hs : List.Pairwise (· < ·) (m.map Prod.fst)) (k x : Nat) :
    List.Pairwise (· < ·) ((entryInsertNU m k x).map Prod.fst) := by
  induction m with
  | nil => simp [entryInsertNU]
  | cons b t ih =>
    obtain ⟨k', l⟩ := b
    simp only [List.map_cons, List.pairwise_cons] at hs
    obtain ⟨hlt, hst⟩ := hs
    simp only [entryInsertNU]
    by_cases h1 : k < k'
    · simp only [if_pos h1, List.map_cons]
      refine List.pairwise_cons.2 ⟨?_, List.pairwise_cons.2 ⟨hlt, hst⟩⟩
      intro b hb
      simp only [List.mem_cons] at hb
      rcases hb with rfl | hb
      · exact h1
      · have := hlt b hb
        omega
    · by_cases h2 : k = k'
      · subst h2
        simp only [if_neg h1, if_pos rfl, List.map_cons]
        exact List.pairwise_cons.2 ⟨hlt, hst⟩
      · simp only [if_neg h1, if_neg h2, List.map_cons]
        refine List.pairwise_cons.2 ⟨?_, ih hst⟩
        intro b hb
        rcases entryInsertNU_keys_sub t k x b hb with rfl | hb
        · omega
        · exact hlt b hb

theorem getD_set_self {α : Type} {l : List α} {i : Nat} (h : i < l.length) (x d : α) :
    (l.set i x).getD i d = x := by
  simp [List.getD, List.getElem?_set_self', h]

theorem getD_set_ne {α : Type} {l : List α} {i j : Nat} (h : j ≠ i) (x d : α) :
    (l.set i x).getD j d = l.getD j d := by
  simp [List.getD, List.getElem?_set_ne (fun he => h he.symm)]

theorem getD_append_last {α : Type} (l : List α) (x d : α) :
    (l ++ [x]).getD l.length d = x := by
  simp [List.getD]

theorem getD_of_le {α : Type} {l : List α} {j : Nat} (h : l.length ≤ j) (d : α) :
    l.getD j d = d := by
  have h1 : l[j]? = none := List.getElem?_eq_none h
  simp [List.getD, h1]

theorem getD_append_ne {α : Type} (l : List α) (x d : α) {j : Nat}
    (h : j ≠ l.length) : (l ++ [x]).getD j d = l.getD j d := by
  rcases Nat.lt_or_ge j l.length with hlt | hge
  · simp [List.getD, List.getElem?_append_left hlt]
  · have hgt : l.length < j := by omega
    have h1 : (l ++ [x])[j]? = none := List.getElem?_eq_none (by simp; omega)
    have h2 : l[j]? = none := List.getElem?_eq_none (by omega)
    simp [List.getD, h1, h2]

theorem slab_get_lt {st : Slab} {i : Nat} {r : Record} (h : st.get i = some r) :
    i < st.entries.length := by
  by_contra hc
  rw [Slab.get, getD_of_le (by omega)] at h
  cases h

theorem slab_insert_spec {st : Slab} (hwf : st.WF) (r : Record) :
    (st.insert r).2.get (st.insert r).1 = some r ∧
    st.get (st.insert r).1 = none ∧
    (∀ t, t ≠ (st.insert r).1 → (st.insert r).2.get t = st.get t) ∧
    (st.insert r).2.WF := by
  obtain ⟨hnd, hmem⟩ := hwf
  unfold Slab.insert
  cases hf : st.free with
  | nil =>
    refine ⟨getD_append_last _ _ _, getD_of_le (le_refl _) _, ?_, ?_⟩
    · intro t ht
      exact getD_append_ne _ _ _ ht
    · exact ⟨List.nodup_nil, by simp⟩
  | cons a rest =>
    have ha : a ∈ st.free := by rw [hf]; exact List.mem_cons_self _ _
    obtain ⟨halt, hav⟩ := hmem a ha
    rw [hf] at hnd
    obtain ⟨hanr, hndr⟩ := List.nodup_cons.1 hnd
    refine ⟨getD_set_self halt _ _, hav, ?_, ?_⟩
    · intro t ht
      exact getD_set_ne ht _ _
    · refine ⟨hndr, ?_⟩
      intro q hq
      have hqf : q ∈ st.free := by rw [hf]; exact List.mem_cons_of_mem _ hq
      obtain ⟨hql, hqv⟩ := hmem q hqf
      have hqa : q ≠ a := fun he => hanr (he ▸ hq)
      refine ⟨by simpa using hql, ?_⟩
      rw [getD_set_ne hqa]
      exact hqv

theorem slab_remove_spec {st : Slab} {i : Nat} {r : Record} {st' : Slab}
    (hwf : st.WF) (h : st.remove i = some (r, st')) :
    st.get i = some r ∧ st'.get i = none ∧
    (∀ t, t ≠ i → st'.get t = st.get t) ∧ st'.WF := by
  obtain ⟨hnd, hmem⟩ := hwf
  unfold Slab.remove at h
  cases hg : st.get i with
  | none => rw [hg] at h; cases h
  | some r0 =>
    rw [hg] at h
    cases h
    have hlt : i < st.entries.length := slab_get_lt hg
    refine ⟨rfl, ?_, ?_, ?_⟩
    · exact getD_set_self hlt _ _
    · intro t ht
      exact getD_set_ne ht _ _
    · constructor
      · refine List.nodup_cons.2 ⟨?_, hnd⟩
        intro hif
        have := (hmem i hif).2
        rw [Slab.get] at hg
        rw [this] at hg
        cases hg
      · intro q hq
        rcases List.mem_cons.1 hq with rfl | hq
        · exact ⟨by simpa using hlt, getD_set_self hlt _ _⟩
        · obtain ⟨hql, hqv⟩ := hmem q hq
          have hqi : q ≠ i := by
            intro he
            subst he
            rw [Slab.get, hqv] at hg
            cases hg
          exact ⟨by simpa using hql, by rw [getD_set_ne hqi]; exact hqv⟩

theorem slab_setAt_get_self {st : Slab} {i : Nat} (h : i < st.entries.length)
    (r : Record) : (st.setAt i r).get i = some r :=
  getD_set_self h _ _

theorem slab_setAt_get_ne {st : Slab} {i t : Nat} (h : t ≠ i) (r : Record) :
    (st.setAt i r).get t = st.get t :=
  getD_set_ne h _ _

theorem slab_setAt_WF {st : Slab} {i : Nat} {r0 : Record} (hwf : st.WF)
    (hocc : st.get i = some r0) (r : Record) : (st.setAt i r).WF := by
  obtain ⟨hnd, hmem⟩ := hwf
  unfold Slab.setAt
  refine ⟨hnd, ?_⟩
  intro q hq
  obtain ⟨hql, hqv⟩ := hmem q hq
  have hqi : q ≠ i := by
    intro he
    subst he
    rw [Slab.get, hqv] at hocc
    cases hocc
  exact ⟨by simpa using hql, by rw [getD_set_ne hqi]; exact hqv⟩

/-! ### Specialisation equations for the generated methods -/

theorem getByUnique_eq {c : MultiIndexMap} {i : Nat} {m : UM}
    (hi : c.indices.get? i = some (.unique m)) (k : Nat) :
    c.getByUnique i k = (match lookupU m k with
      | none => .ok none
      | some idx =>
        match c._store.get idx with
        | some r => .ok (some r)
        | none => .error storeIndexMsg) := by
  unfold MultiIndexMap.getByUnique
  rw [hi]

theorem getByNonUnique_eq {c : MultiIndexMap} {i : Nat} {m : NUM}
    (hi : c.indices.get? i = some (.nonUnique m)) (k : Nat) :
    c.getByNonUnique i k = (match getNU m k with
      | none => .ok []
      | some idxs => slotsToRecs c._store idxs) := by
  unfold MultiIndexMap.getByNonUnique
  rw [hi]

theorem removeByUnique_eq {c : MultiIndexMap} {i : Nat} {m : UM}
    (hi : c.indices.get? i = some (.unique m)) (k : Nat) :
    c.removeByUnique i k = (match removeU m k with
      | (_, none) => .ok (none, c)
      | (m1, some idx) =>
        match c._store.remove idx with
        | none => .error slabRemoveMsg
        | some (rO, st1) =>
          match removeSteps rO idx 0 (c.indices.set i (.unique m1)) with
          | .error e => .error e
          | .ok fs2 => .ok (some rO, ⟨st1, fs2⟩)) := by
  unfold MultiIndexMap.removeByUnique
  rw [hi]

theorem removeByNonUnique_eq {c : MultiIndexMap} {i : Nat} {m : NUM}
    (hi : c.indices.get? i = some (.nonUnique m)) (k : Nat) :
    c.removeByNonUnique i k = (match removeKeyNU m k with
      | (_, none) => .ok ([], c)
      | (m1, some idxs) =>
        (removeLoop idxs c._store (c.indices.set i (.nonUnique m1))).map
          (fun q => (q.1, ⟨q.2.1, q.2.2⟩))) := by
  unfold MultiIndexMap.removeByNonUnique
  rw [hi]

theorem modifyByUnique_eq {c : MultiIndexMap} {i : Nat} {m : UM}
    (hi : c.indices.get? i = some (.unique m)) (k : Nat) (f : Record → Record) :
    c.modifyByUnique i k f = (match lookupU m k with
      | none => .ok (none, c)
      | some idx =>
        match c._store.get idx with
        | none => .error storeIndexMsg
        | some rO =>
          match modifySteps (f rO) rO idx 0 c.indices with
          | .error e => .error e
          | .ok fs1 => .ok (some (f rO), ⟨c._store.setAt idx (f rO), fs1⟩)) := by
  unfold MultiIndexMap.modifyByUnique
  rw [hi]

theorem modifyByNonUnique_eq {c : MultiIndexMap} {i : Nat} {m : NUM}
    (hi : c.indices.get? i = some (.nonUnique m)) (k : Nat) (f : Record → Record) :
    c.modifyByNonUnique i k f =
      (modifyLoopNU f ((getNU m k).getD []) 0 c._store.occPositions c._store
        c.indices []).map (fun q => (q.1, ⟨q.2.1, q.2.2⟩)) := by
  unfold MultiIndexMap.modifyByNonUnique
  rw [hi]

theorem iterByUnique_eq {c : MultiIndexMap} {i : Nat} {m : UM}
    (hi : c.indices.get? i = some (.unique m)) :
    c.iterByUnique i = some ⟨c._store, m, m.reverse⟩ := by
  unfold MultiIndexMap.iterByUnique
  rw [hi]

/-- C9: lookup and removal by a key absent from the chosen index are
recoverable, non-fatal outcomes: `get_by` and `remove_by` return `None`
(unique index) or an empty sequence (non-unique index), never a panic,
and removal leaves the container unchanged. -/
theorem C9_absent_key_recoverable (c : MultiIndexMap) (i k : Nat) :
    (∀ m, c.indices.get? i = some (.unique m) → lookupU m k = none →
      c.getByUnique i k = .ok none ∧ c.removeByUnique i k = .ok (none, c)) ∧
    (∀ m, c.indices.get? i = some (.nonUnique m) → getNU m k = none →
      c.getByNonUnique i k = .ok [] ∧ c.removeByNonUnique i k = .ok ([], c)) := by
  constructor
  · intro m hi hl
    constructor
    · rw [getByUnique_eq hi, hl]
    · rw [removeByUnique_eq hi]
      have h2 : removeU m k = ((removeU m k).1, none) := by
        have := removeU_snd m k
        rw [hl] at this
        rw [← this]
      rw [h2]
  · intro m hi hg
    constructor
    · rw [getByNonUnique_eq hi, hg]
    · rw [removeByNonUnique_eq hi]
      have h2 : removeKeyNU m k = ((removeKeyNU m k).1, none) := by
        have := removeKeyNU_snd m k
        rw [hg] at this
        rw [← this]
      rw [h2]

/-- Witness for C9 at a concrete container and absent key. -/
theorem C9_absent_key_recoverable_witness :
    MultiIndexMap.getByUnique ⟨⟨[some [5, 7]], []⟩, [.unique [(5, 0)], .nonUnique [(7, [0])]]⟩ 0 9 = .ok none ∧
    MultiIndexMap.removeByUnique ⟨⟨[some [5, 7]], []⟩, [.unique [(5, 0)], .nonUnique [(7, [0])]]⟩ 0 9 =
      .ok (none, ⟨⟨[some [5, 7]], []⟩, [.unique [(5, 0)], .nonUnique [(7, [0])]]⟩) ∧
    MultiIndexMap.getByNonUnique ⟨⟨[some [5, 7]], []⟩, [.unique [(5, 0)], .nonUnique [(7, [0])]]⟩ 1 9 = .ok [] ∧
    MultiIndexMap.removeByNonUnique ⟨⟨[some [5, 7]], []⟩, [.unique [(5, 0)], .nonUnique [(7, [0])]]⟩ 1 9 =
      .ok ([], ⟨⟨[some [5, 7]], []⟩, [.unique [(5, 0)], .nonUnique [(7, [0])]]⟩) := by
  have h0 := C9_absent_key_recoverable
    ⟨⟨[some [5, 7]], []⟩, [.unique [(5, 0)], .nonUnique [(7, [0])]]⟩ 0 9
  have h1 := C9_absent_key_recoverable
    ⟨⟨[some [5, 7]], []⟩, [.unique [(5, 0)], .nonUnique [(7, [0])]]⟩ 1 9
  obtain ⟨hg, hr⟩ := h0.1 [(5, 0)] (by decide) (by decide)
  obtain ⟨hg', hr'⟩ := h1.2 [(7, [0])] (by decide) (by decide)
  exact ⟨hg, hr, hg', hr'⟩

/-! ### Step-sequence characterisations -/

theorem insertU_snd {m : UM} (hs : List.Pairwise (· < ·) (m.map Prod.fst))
    (k v : Nat) : (insertU m k v).2 = lookupU m k := by
  induction m with
  | nil => rfl
  | cons b t ih =>
    obtain ⟨k', v'⟩ := b
    simp only [List.map_cons, List.pairwise_cons] at hs
    obtain ⟨hlt, hst⟩ := hs
    simp only [insertU]
    by_cases h1 : k < k'
    · simp only [if_pos h1]
      have hne : k ≠ k' := by omega
      have : lookupU t k = none := lookupU_eq_none t (fun p hp => by
        have := hlt p.1 (List.mem_map_of_mem Prod.fst hp)
        omega)
      simp [lookupU, hne, this]
    · by_cases h2 : k = k'
      · simp [if_neg h1, h2, lookupU]
      · simp only [if_neg h1, if_neg h2, lookupU]
        simp [h2, ih hst]

theorem insertSteps_error_of_collision {r : Record} {s : Nat} :
    ∀ {i0 : Nat} {fs : List FieldIndex},
      (∃ j m, fs.get? j = some (.unique m) ∧
        List.Pairwise (· < ·) (m.map Prod.fst) ∧
        (lookupU m (r.getD (i0 + j) 0)).isSome) →
      ∃ e, insertSteps r s i0 fs = .error e := by
  intro i0 fs
  induction fs generalizing i0 with
  | nil =>
    rintro ⟨j, m, hj, _, _⟩
    cases j <;> cases hj
  | cons b t ih =>
    rintro ⟨j, m, hj, hsort, hsome⟩
    cases j with
    | zero =>
      obtain rfl : b = .unique m := by simpa using hj
      rw [Nat.add_zero] at hsome
      simp only [insertSteps, insStepE]
      have h2 : (insertU m (r.getD i0 0) s).2 = lookupU m (r.getD i0 0) :=
        insertU_snd hsort _ _
      rw [h2, if_pos hsome]
      exact ⟨_, rfl⟩
    | succ j =>
      have hj' : t.get? j = some (.unique m) := hj
      simp only [insertSteps]
      cases hb : insStepE r s i0 b with
      | error e =>
        obtain ⟨msg, f1⟩ := e
        exact ⟨_, rfl⟩
      | ok f1 =>
        have hsh : i0 + (j + 1) = (i0 + 1) + j := by omega
        rw [hsh] at hsome
        obtain ⟨e, he⟩ := ih ⟨j, m, hj', hsort, hsome⟩
        rw [he]
        obtain ⟨msg, t1⟩ := e
        exact ⟨_, rfl⟩

theorem modifySteps_run {rN rO : Record} {idx : Nat} :
    ∀ {i0 : Nat} {fs : List FieldIndex},
      (∀ j fi, fs.get? j = some fi →
        ∃ fo, modifyStepF rN rO idx (i0 + j) fi = .ok fo) →
      ∃ fs', modifySteps rN rO idx i0 fs = .ok fs' ∧
        ∀ j fi, fs.get? j = some fi →
          ∃ fo, modifyStepF rN rO idx (i0 + j) fi = .ok fo ∧ fs'.get? j = some fo := by
  intro i0 fs
  induction fs generalizing i0 with
  | nil =>
    intro _
    exact ⟨[], rfl, fun j fi hj => by cases j <;> cases hj⟩
  | cons b t ih =>
    intro hall
    obtain ⟨f0, hf0⟩ := hall 0 b rfl
    obtain ⟨t', ht', hrest⟩ := ih (fun j fi hj => by
      have := hall (j + 1) fi hj
      have hsh : i0 + (j + 1) = (i0 + 1) + j := by omega
      rwa [hsh] at this)
    refine ⟨f0 :: t', ?_, ?_⟩
    · simp only [modifySteps]
      have hf0' : modifyStepF rN rO idx i0 b = .ok f0 := by simpa using hf0
      rw [hf0', ht']
      rfl
    · intro j fi hj
      cases j with
      | zero =>
        obtain rfl : b = fi := by simpa using hj
        exact ⟨f0, hf0, rfl⟩
      | succ j =>
        obtain ⟨fo, hfo, hget⟩ := hrest j fi hj
        have hsh : (i0 + 1) + j = i0 + (j + 1) := by omega
        rw [hsh] at hfo
        exact ⟨fo, hfo, hget⟩

theorem modifySteps_error {rN rO : Record} {idx : Nat} :
    ∀ {i0 : Nat} {fs : List FieldIndex} {j : Nat} {fi : FieldIndex} {e : String},
      fs.get? j = some fi → modifyStepF rN rO idx (i0 + j) fi = .error e →
      (∀ j' fi', j' < j → fs.get? j' = some fi' →
        ∃ fo, modifyStepF rN rO idx (i0 + j') fi' = .ok fo) →
      ∃ e', modifySteps rN rO idx i0 fs = .error e' := by
  intro i0 fs
  induction fs generalizing i0 with
  | nil => intro j fi e hj _ _; cases j <;> cases hj
  | cons b t ih =>
    intro j fi e hj herr hpre
    cases j with
    | zero =>
      have hb : b = fi := by simpa using hj
      have herr' : modifyStepF rN rO idx i0 b = .error e := by
        rw [hb]
        simpa using herr
      simp only [modifySteps]
      rw [herr']
      exact ⟨e, rfl⟩
    | succ j =>
      simp only [modifySteps]
      obtain ⟨f0, hf0⟩ := hpre 0 b (by omega) rfl
      have hf0' : modifyStepF rN rO idx i0 b = .ok f0 := by simpa using hf0
      rw [hf0']
      have hsh : i0 + (j + 1) = (i0 + 1) + j := by omega
      rw [hsh] at herr
      obtain ⟨e', he'⟩ := ih hj herr (fun j' fi' hlt hj' => by
        have := hpre (j' + 1) fi' (by omega) hj'
        have hsh2 : i0 + (j' + 1) = (i0 + 1) + j' := by omega
        rwa [hsh2] at this)
      rw [he']
      exact ⟨e', rfl⟩

/-- A field whose value did not change is not touched by the modify
snippet. -/
theorem modifyStepF_unchanged {rN rO : Record} {idx i : Nat} {fi : FieldIndex}
    (h : rN.getD i 0 = rO.getD i 0) : modifyStepF rN rO idx i fi = .ok fi := by
  cases fi with
  | unique m =>
    simp only [modifyStepF]
    rw [if_neg (fun hc => hc h)]
  | nonUnique m =>
    simp only [modifyStepF]
    rw [if_neg (fun hc => hc h)]
  | unindexed => rfl

instance instDecEqExcept {e a : Type} [DecidableEq e] [DecidableEq a] :
    DecidableEq (Except e a)
  | .error x, .error y =>
    if h : x = y then .isTrue (by rw [h]) else .isFalse (by intro hc; cases hc; exact h rfl)
  | .error x, .ok y => .isFalse (by intro hc; cases hc)
  | .ok x, .error y => .isFalse (by intro hc; cases hc)
  | .ok x, .ok y =>
    if h : x = y then .isTrue (by rw [h]) else .isFalse (by intro hc; cases hc; exact h rfl)

/-- C1 counterexample: inserting a second record with the already-present
unique key 5 does fail fatally, but the state visible at the panic point
is not "only the first record": the store already holds both records and
the unique index has been overwritten to map key 5 to the new slot. -/
theorem C1_counterexample :
    MultiIndexMap.insert ⟨⟨[some [5]], []⟩, [.unique [(5, 0)]]⟩ [5] =
      .error (uniqMsg, ⟨⟨[some [5], some [5]], []⟩, [.unique [(5, 1)]]⟩) ∧
    (⟨⟨[some [5], some [5]], []⟩, [.unique [(5, 1)]]⟩ : MultiIndexMap) ≠
      ⟨⟨[some [5]], []⟩, [.unique [(5, 0)]]⟩ ∧
    (⟨[some [5], some [5]], []⟩ : Slab).entries.length ≠
      (⟨[some [5]], []⟩ : Slab).entries.length := by
  refine ⟨by decide, by decide, by decide⟩

/-- C1 (amended): inserting a record whose key on some unique-indexed
field is already present fails fatally (the operation panics and returns
no value), and a `modify_by` that changes a unique-indexed field to an
already-present key likewise fails fatally; but the failure does not
precede all mutation: at the panic point of a failed insert the store
already contains the new record (and the lookup tables up to and
including the colliding one have been updated). -/
theorem C1_amended :
    (∀ (c : MultiIndexMap) (r : Record),
      (∃ j m, c.indices.get? j = some (.unique m) ∧
        List.Pairwise (· < ·) (m.map Prod.fst) ∧
        (lookupU m (r.getD j 0)).isSome) →
      ∃ msg st, c.insert r = .error (msg, st) ∧
        st._store = (c._store.insert r).2) ∧
    (∀ (c : MultiIndexMap) (i k : Nat) (f : Record → Record) (m : UM)
      (s0 : Nat) (r : Record),
      c.indices.get? i = some (.unique m) →
      List.Pairwise (· < ·) (m.map Prod.fst) →
      lookupU m k = some s0 → c._store.get s0 = some r → r.getD i 0 = k →
      (f r).getD i 0 ≠ k → (lookupU m ((f r).getD i 0)).isSome →
      (∀ j, j ≠ i → (f r).getD j 0 = r.getD j 0) →
      ∃ e, c.modifyByUnique i k f = .error e) := by
  constructor
  · intro c r ⟨j, m, hj, hsort, hsome⟩
    have hcol : ∃ j m, c.indices.get? j = some (.unique m) ∧
        List.Pairwise (· < ·) (m.map Prod.fst) ∧
        (lookupU m (r.getD (0 + j) 0)).isSome := by
      refine ⟨j, m, hj, hsort, ?_⟩
      rwa [Nat.zero_add]
    obtain ⟨e, he⟩ := insertSteps_error_of_collision (s := (c._store.insert r).1) hcol
    obtain ⟨msg, fs⟩ := e
    refine ⟨msg, ⟨(c._store.insert r).2, fs⟩, ?_, rfl⟩
    simp only [MultiIndexMap.insert, he]
  · intro c i k f m s0 r hi hsort hl hg hki hBk hB honly
    have hstep : modifyStepF (f r) r s0 (0 + i) (.unique m) = .error uniqMsg := by
      rw [Nat.zero_add]
      simp only [modifyStepF]
      rw [if_pos (by rw [hki]; exact hBk)]
      rcases hrm : removeU m k with ⟨m1, o⟩
      have h2 := removeU_snd m k
      rw [hl, hrm] at h2
      obtain rfl : o = some s0 := by simpa using h2
      simp only [modifyUStep, hki, hrm]
      have hsub : m1.Sublist m := by
        have h3 := removeU_fst_sublist m k
        rwa [hrm] at h3
      have hm1s : List.Pairwise (· < ·) (m1.map Prod.fst) :=
        hsort.sublist (hsub.map Prod.fst)
      have hins : (insertU m1 ((f r).getD i 0) s0).2 =
          lookupU m1 ((f r).getD i 0) := insertU_snd hm1s _ _
      have hlk : lookupU m1 ((f r).getD i 0) = lookupU m ((f r).getD i 0) := by
        have h3 := lookupU_removeU_ne m (q := (f r).getD i 0) hBk
        rw [hrm] at h3
        exact h3
      rw [hins, hlk, if_pos hB]
      rfl
    obtain ⟨e', he'⟩ := modifySteps_error hi hstep (fun j' fi' hlt hj' => by
      refine ⟨fi', modifyStepF_unchanged ?_⟩
      rw [Nat.zero_add]
      exact honly j' (by omega))
    refine ⟨e', ?_⟩
    rw [modifyByUnique_eq hi k f]
    simp only [hl, hg, he']

/-- Witness for C1 (amended) at a concrete collision. -/
theorem C1_amended_witness :
    ∃ msg st,
      MultiIndexMap.insert ⟨⟨[some [5]], []⟩, [.unique [(5, 0)]]⟩ [5] =
        .error (msg, st) ∧
      st._store = ((⟨[some [5]], []⟩ : Slab).insert [5]).2 :=
  C1_amended.1 ⟨⟨[some [5]], []⟩, [.unique [(5, 0)]]⟩ [5]
    ⟨0, [(5, 0)], by decide, by decide, by decide⟩

/-- C4 counterexample: `remove_by` finds the record via index 0 of this
two-unique-field container while the slot id is missing from index 1
(whose table is empty); the claim demands a fatal failure, but the call
returns successfully with the removed record. -/
theorem C4_counterexample :
    MultiIndexMap.removeByUnique
        ⟨⟨[some [1, 2]], []⟩, [.unique [(1, 0)], .unique []]⟩ 0 1 =
      .ok (some [1, 2], ⟨⟨[none], [0]⟩, [.unique [], .unique []]⟩) ∧
    lookupU [] (([1, 2] : Record).getD 1 0) = none := by
  exact ⟨by decide, rfl⟩

/-- C4 (amended): `remove_by` runs a removal step for every field using
the pre-removal record's values, but a slot id that cannot be found is
mostly ignored silently: the unique-index step never fails (the removal
result is discarded unchecked), and the non-unique step fails fatally
exactly when the key's slot set has more than one element and does not
contain the slot id — an absent key, or a singleton set holding a
different slot, is silently accepted. -/
theorem C4_amended :
    (∀ (rO : Record) (idx i : Nat) (m : UM),
      removeStepF rO idx i (.unique m) = .ok (.unique (removeU m (rO.getD i 0)).1)) ∧
    (∀ (m : NUM) (k idx : Nat),
      (∃ e, removeNUAt m k idx = .error e) ↔
        (1 < ((getNU m k).getD []).length ∧ idx ∉ (getNU m k).getD [])) := by
  constructor
  · intro rO idx i m
    rfl
  · intro m k idx
    unfold removeNUAt
    cases hg : getNU m k with
    | none => simp
    | some elems =>
      simp only [Option.getD_some]
      by_cases h1 : 1 < elems.length
      · by_cases h2 : idx ∈ elems
        · simp [h1, h2]
        · simp [h1, h2]
      · simp [h1]

/-- Witness for C4 (amended): a concrete silent success and a concrete
fatal case. -/
theorem C4_amended_witness :
    (∃ e, removeNUAt [(5, [0, 1])] 5 7 = .error e) ∧
    removeStepF [9] 3 0 (.unique [(9, 3)]) =
      .ok (.unique (removeU [(9, 3)] 9).1) :=
  ⟨(C4_amended.2 [(5, [0, 1])] 5 7).mpr (by decide),
    C4_amended.1 [9] 3 0 [(9, 3)]⟩

theorem modifySteps_ok_unchanged {rN rO : Record} {idx : Nat} :
    ∀ {i0 : Nat} {fs fs' : List FieldIndex}, modifySteps rN rO idx i0 fs = .ok fs' →
      ∀ j fi, fs.get? j = some fi → rN.getD (i0 + j) 0 = rO.getD (i0 + j) 0 →
        fs'.get? j = some fi := by
  intro i0 fs
  induction fs generalizing i0 with
  | nil => intro fs' h j fi hj _; cases h; exact hj
  | cons b t ih =>
    intro fs' h j fi hj hunch
    simp only [modifySteps] at h
    cases hb : modifyStepF rN rO idx i0 b with
    | error e => rw [hb] at h; cases h
    | ok f1 =>
      rw [hb] at h
      cases ht : modifySteps rN rO idx (i0 + 1) t with
      | error e => rw [ht] at h; cases h
      | ok t1 =>
        rw [ht] at h
        cases h
        cases j with
        | zero =>
          obtain rfl : b = fi := by simpa using hj
          rw [Nat.add_zero] at hunch
          rw [modifyStepF_unchanged hunch] at hb
          cases hb
          rfl
        | succ j =>
          have hsh : i0 + (j + 1) = (i0 + 1) + j := by omega
          rw [hsh] at hunch
          exact ih ht j fi hj hunch

theorem modifySteps_id {rN rO : Record} {idx : Nat} :
    ∀ {i0 : Nat} {fs : List FieldIndex},
      (∀ j fi, fs.get? j = some fi →
        fi = .unindexed ∨ rN.getD (i0 + j) 0 = rO.getD (i0 + j) 0) →
      modifySteps rN rO idx i0 fs = .ok fs := by
  intro i0 fs
  induction fs generalizing i0 with
  | nil => intro _; rfl
  | cons b t ih =>
    intro hall
    have hb : modifyStepF rN rO idx i0 b = .ok b := by
      rcases hall 0 b rfl with rfl | hunch
      · rfl
      · rw [Nat.add_zero] at hunch
        exact modifyStepF_unchanged hunch
    have ht : modifySteps rN rO idx (i0 + 1) t = .ok t := by
      apply ih
      intro j fi hj
      have := hall (j + 1) fi hj
      have hsh : i0 + (j + 1) = (i0 + 1) + j := by omega
      rwa [hsh] at this
    simp only [modifySteps]
    rw [hb, ht]
    rfl

theorem modifyLoopNU_indices_frame {f : Record → Record} {fs0 : List FieldIndex}
    (hf : ∀ (rec : Record) (rN : Record), rN = f rec →
      ∀ j fi, fs0.get? j = some fi →
        fi = .unindexed ∨ rN.getD j 0 = rec.getD j 0) :
    ∀ {idxs : List Nat} {last : Nat} {rem : List Nat} {st : Slab}
      {acc : List Record} {out : List Record × Slab × List FieldIndex},
      modifyLoopNU f idxs last rem st fs0 acc = .ok out → out.2.2 = fs0 := by
  intro idxs
  induction idxs with
  | nil => intro last rem st acc out h; cases h; rfl
  | cons idx rest ih =>
    intro last rem st acc out h
    simp only [modifyLoopNU] at h
    split at h
    · cases h
    · rename_i pos hn
      split at h
      · cases h
      · rename_i rO hg
        have hid : modifySteps (f rO) rO idx 0 fs0 = .ok fs0 :=
          modifySteps_id (fun j fi hj => by
            have := hf rO (f rO) rfl j fi hj
            simpa using this)
        rw [hid] at h
        exact ih h

/-- C10: a modify_by call only touches an index when the mutator actually
changed that field's value.  For the unique-named modifier, every field
whose value is unchanged keeps its lookup table pointwise, while the store
is rewritten only at the located slot; for the non-unique-named modifier,
a mutator that leaves every indexed field's value unchanged leaves the
whole index list exactly as it was. -/
theorem C10_modify_frame :
    (∀ (c c' : MultiIndexMap) (i k : Nat) (f : Record → Record) (m : UM)
       (s0 : Nat) (r : Record) (out : Option Record),
      c.indices.get? i = some (.unique m) → lookupU m k = some s0 →
      c._store.get s0 = some r → c.modifyByUnique i k f = .ok (out, c') →
      (∀ j fi, c.indices.get? j = some fi → (f r).getD j 0 = r.getD j 0 →
        c'.indices.get? j = some fi) ∧ c'._store = c._store.setAt s0 (f r)) ∧
    (∀ (c c' : MultiIndexMap) (i k : Nat) (f : Record → Record) (m : NUM)
       (out : List Record),
      c.indices.get? i = some (.nonUnique m) →
      (∀ (rec : Record) (j : Nat) (fi : FieldIndex), c.indices.get? j = some fi →
        fi = .unindexed ∨ (f rec).getD j 0 = rec.getD j 0) →
      c.modifyByNonUnique i k f = .ok (out, c') → c'.indices = c.indices) := by
  constructor
  · intro c c' i k f m s0 r out hi hl hg hok
    rw [modifyByUnique_eq hi k f] at hok
    simp only [hl, hg] at hok
    cases hs : modifySteps (f r) r s0 0 c.indices with
    | error e => rw [hs] at hok; cases hok
    | ok fs1 =>
      rw [hs] at hok
      cases hok
      constructor
      · intro j fi hj hunch
        exact modifySteps_ok_unchanged hs j fi hj (by simpa using hunch)
      · rfl
  · intro c c' i k f m out hi hf hok
    rw [modifyByNonUnique_eq hi k f] at hok
    cases hl2 : modifyLoopNU f ((getNU m k).getD []) 0 c._store.occPositions
        c._store c.indices [] with
    | error e => rw [hl2] at hok; simp only [Except.map] at hok; cases hok
    | ok q =>
      rw [hl2] at hok
      simp only [Except.map] at hok
      cases hok
      exact modifyLoopNU_indices_frame (fun rec rN hrn j fi hj => by
        subst hrn
        exact hf rec j fi hj) hl2

/-- Witness for C10: a mutator changing only an unindexed field leaves the
index entry untouched. -/
theorem C10_modify_frame_witness :
    List.get?
      (MultiIndexMap.indices
        ⟨⟨[some [5, 7]], []⟩, [.unique [(5, 0)], .unindexed]⟩) 0 =
      some (.unique [(5, 0)]) := by
  have h := C10_modify_frame.1 ⟨⟨[some [5, 9]], []⟩, [.unique [(5, 0)], .unindexed]⟩
      ⟨⟨[some [5, 7]], []⟩, [.unique [(5, 0)], .unindexed]⟩ 0 5
      (fun rec => [rec.getD 0 0, 7]) [(5, 0)] 0 [5, 9] (some [5, 7])
      (by decide) (by decide) (by decide) (by decide)
  exact h.1 0 (.unique [(5, 0)]) (by decide) (by decide)

/-- C3: modifying a record's unique-indexed field from key A to a key B
not otherwise present makes it retrievable by B and no longer retrievable
by A.  The whole reindex happens inside the single `modify_by` call (the
remove-old/insert-new pair runs with no caller-observable state in
between), so no state in which the record answers to neither or both keys
is observable. -/
theorem C3_reindex_unique (c : MultiIndexMap) (i : Nat) (A : Nat)
    (f : Record → Record) (m : UM) (s0 : Nat) (r : Record)
    (hi : c.indices.get? i = some (.unique m))
    (hsort : List.Pairwise (· < ·) (m.map Prod.fst))
    (hl : lookupU m A = some s0) (hg : c._store.get s0 = some r)
    (hki : r.getD i 0 = A) (hB : lookupU m ((f r).getD i 0) = none)
    (honly : ∀ j, j ≠ i → (f r).getD j 0 = r.getD j 0) :
    ∃ c', c.modifyByUnique i A f = .ok (some (f r), c') ∧
      c'.getByUnique i ((f r).getD i 0) = .ok (some (f r)) ∧
      c'.getByUnique i A = .ok none := by
  have hBA : (f r).getD i 0 ≠ A := by
    intro he
    rw [he, hl] at hB
    cases hB
  rcases hrm : removeU m A with ⟨m1, o⟩
  have h2 := removeU_snd m A
  rw [hl, hrm] at h2
  obtain rfl : o = some s0 := by simpa using h2
  have hsub : m1.Sublist m := by
    have h3 := removeU_fst_sublist m A
    rwa [hrm] at h3
  have hm1s : List.Pairwise (· < ·) (m1.map Prod.fst) :=
    hsort.sublist (hsub.map Prod.fst)
  have hlkB : lookupU m1 ((f r).getD i 0) = none := by
    have h3 := lookupU_removeU_ne m (q := (f r).getD i 0) hBA
    rw [hrm] at h3
    rw [h3]
    exact hB
  have hstep : modifyStepF (f r) r s0 (0 + i) (.unique m) =
      .ok (.unique (insertU m1 ((f r).getD i 0) s0).1) := by
    rw [Nat.zero_add]
    simp only [modifyStepF]
    rw [if_pos (by rw [hki]; exact hBA)]
    simp only [modifyUStep, hki, hrm]
    have hins : (insertU m1 ((f r).getD i 0) s0).2 =
        lookupU m1 ((f r).getD i 0) := insertU_snd hm1s _ _
    rw [hins, hlkB]
    rfl
  obtain ⟨fs', hrun, hpt⟩ := @modifySteps_run (f r) r s0 0 c.indices (fun j fi hj => by
      by_cases hji : j = i
      · subst hji
        rw [hi] at hj
        cases hj
        exact ⟨_, hstep⟩
      · exact ⟨fi, modifyStepF_unchanged (by rw [Nat.zero_add]; exact honly j hji)⟩)
  obtain ⟨fo, hfo, hgi⟩ := hpt i (.unique m) hi
  rw [hstep] at hfo
  cases hfo
  refine ⟨⟨c._store.setAt s0 (f r), fs'⟩, ?_, ?_, ?_⟩
  · rw [modifyByUnique_eq hi A f]
    simp only [hl, hg, hrun]
  · rw [getByUnique_eq hgi]
    rw [lookupU_insertU_self]
    have hget : (c._store.setAt s0 (f r)).get s0 = some (f r) :=
      slab_setAt_get_self (slab_get_lt hg) (f r)
    simp only [hget]
  · rw [getByUnique_eq hgi]
    have hlkA : lookupU (insertU m1 ((f r).getD i 0) s0).1 A = none := by
      rw [lookupU_insertU_ne m1 (fun he => hBA he.symm)]
      have h3 := lookupU_removeU_self m A hsort
      rwa [hrm] at h3
    rw [hlkA]

/-- Witness for C3: moving a record from unique key 1 to key 2. -/
theorem C3_reindex_unique_witness :
    ∃ c', MultiIndexMap.modifyByUnique ⟨⟨[some [1]], []⟩, [.unique [(1, 0)]]⟩ 0 1
        (fun _ => [2]) = .ok (some [2], c') ∧
      c'.getByUnique 0 (([2] : Record).getD 0 0) = .ok (some [2]) ∧
      c'.getByUnique 0 1 = .ok none :=
  C3_reindex_unique ⟨⟨[some [1]], []⟩, [.unique [(1, 0)]]⟩ 0 1 (fun _ => [2])
    [(1, 0)] 0 [1] (by decide) (by decide) (by decide) (by decide) (by decide)
    (by decide)
    (fun j hj => by
      cases j with
      | zero => exact absurd rfl hj
      | succ n => rfl)

theorem getNU_mem {m : NUM} {k : Nat} {l : List Nat} (h : getNU m k = some l) :
    (k, l) ∈ m := by
  induction m with
  | nil => cases h
  | cons b t ih =>
    obtain ⟨k', l'⟩ := b
    simp only [getNU] at h
    by_cases h1 : k = k'
    · rw [if_pos h1] at h
      cases h
      subst h1
      exact List.mem_cons_self _ _
    · rw [if_neg h1] at h
      exact List.mem_cons_of_mem _ (ih h)

theorem lookupU_mem {m : UM} {k v : Nat} (h : lookupU m k = some v) :
    (k, v) ∈ m := by
  induction m with
  | nil => cases h
  | cons b t ih =>
    obtain ⟨k', v'⟩ := b
    simp only [lookupU] at h
    by_cases h1 : k = k'
    · rw [if_pos h1] at h
      cases h
      subst h1
      exact List.mem_cons_self _ _
    · rw [if_neg h1] at h
      exact List.mem_cons_of_mem _ (ih h)

theorem slotsToRecs_ok {st : Slab} :
    ∀ {l : List Nat}, (∀ q ∈ l, ∃ r, st.get q = some r) →
      slotsToRecs st l = .ok (l.map (fun q => (st.get q).getD [])) := by
  intro l
  induction l with
  | nil => intro _; rfl
  | cons a t ih =>
    intro h
    obtain ⟨r, hr⟩ := h a (List.mem_cons_self _ _)
    simp only [slotsToRecs, hr]
    rw [ih (fun q hq => h q (List.mem_cons_of_mem _ hq))]
    simp [Except.map, hr]

/-- The per-field validity facts packaged in `MultiIndexMap.WF`, read off
at one field position. -/
theorem WF_at {c : MultiIndexMap} (hwf : c.WF) {i : Nat} {fi : FieldIndex}
    (hi : c.indices.get? i = some fi) : fi.WFat c._store i := by
  have h := (allPos_iff _ 0 c.indices).1 hwf.2 i fi hi
  simpa using h

/-- C8: for a non-unique index, `get_by` returns the group of matching
records in ascending slot-id order — the slot list is strictly sorted and
the result is exactly that list dereferenced into the store, hence
deterministic for a given container state. -/
theorem C8_nonunique_get_sorted (c : MultiIndexMap) (i k : Nat) (m : NUM)
    (l : List Nat) (hi : c.indices.get? i = some (.nonUnique m))
    (hwf : c.WF) (hg : getNU m k = some l) :
    List.Pairwise (· < ·) l ∧
    c.getByNonUnique i k = .ok (l.map (fun q => (c._store.get q).getD [])) ∧
    (∀ q ∈ l, ∃ r, c._store.get q = some r ∧ r.getD i 0 = k) := by
  have hfat := WF_at hwf hi
  obtain ⟨houter, hmem⟩ := hfat
  obtain ⟨hne, hsorted, hval⟩ := hmem (k, l) (getNU_mem hg)
  have hocc : ∀ q ∈ l, ∃ r, c._store.get q = some r ∧ r.getD i 0 = k := by
    intro q hq
    have h3 := hval q hq
    rw [Option.map_eq_some'] at h3
    obtain ⟨r, hr, hrk⟩ := h3
    exact ⟨r, hr, hrk⟩
  refine ⟨hsorted, ?_, hocc⟩
  rw [getByNonUnique_eq hi, hg]
  exact slotsToRecs_ok (fun q hq => ⟨(hocc q hq).choose, (hocc q hq).choose_spec.1⟩)

/-- Witness for C8 at a concrete two-record group. -/
theorem C8_nonunique_get_sorted_witness :
    List.Pairwise (· < ·) [0, 1] ∧
    MultiIndexMap.getByNonUnique
        ⟨⟨[some [7], some [7]], []⟩, [.nonUnique [(7, [0, 1])]]⟩ 0 7 =
      .ok ([0, 1].map (fun q =>
        ((⟨⟨[some [7], some [7]], []⟩, [.nonUnique [(7, [0, 1])]]⟩ :
          MultiIndexMap)._store.get q).getD [])) ∧
    (∀ q ∈ [0, 1], ∃ r,
      (⟨⟨[some [7], some [7]], []⟩, [.nonUnique [(7, [0, 1])]]⟩ :
        MultiIndexMap)._store.get q = some r ∧ r.getD 0 0 = 7) :=
  C8_nonunique_get_sorted ⟨⟨[some [7], some [7]], []⟩, [.nonUnique [(7, [0, 1])]]⟩
    0 7 [(7, [0, 1])] [0, 1] (by decide) (by decide) (by decide)

/-- C7: for an ordered-unique index holding exactly the integer keys
1, 2, 3, `iter_by` yields the corresponding records in strictly ascending
key order, and reverse traversal via `next_back` yields them in strictly
descending key order. -/
theorem C7_order_fidelity (c : MultiIndexMap) (i a1 a2 a3 : Nat) (m : UM)
    (hi : c.indices.get? i = some (.unique m))
    (hm : m = [(1, a1), (2, a2), (3, a3)]) (hwf : c.WF) :
    ∃ r1 r2 r3,
      c._store.get a1 = some r1 ∧ c._store.get a2 = some r2 ∧
      c._store.get a3 = some r3 ∧
      r1.getD i 0 = 1 ∧ r2.getD i 0 = 2 ∧ r3.getD i 0 = 3 ∧
      c.iterByUnique i =
        some ⟨c._store, [(1, a1), (2, a2), (3, a3)], [(3, a3), (2, a2), (1, a1)]⟩ ∧
      IterU.next ⟨c._store, [(1, a1), (2, a2), (3, a3)], [(3, a3), (2, a2), (1, a1)]⟩ =
        .ok (some (r1, ⟨c._store, [(2, a2), (3, a3)], [(3, a3), (2, a2), (1, a1)]⟩)) ∧
      IterU.next ⟨c._store, [(2, a2), (3, a3)], [(3, a3), (2, a2), (1, a1)]⟩ =
        .ok (some (r2, ⟨c._store, [(3, a3)], [(3, a3), (2, a2), (1, a1)]⟩)) ∧
      IterU.next ⟨c._store, [(3, a3)], [(3, a3), (2, a2), (1, a1)]⟩ =
        .ok (some (r3, ⟨c._store, [], [(3, a3), (2, a2), (1, a1)]⟩)) ∧
      IterU.next ⟨c._store, [], [(3, a3), (2, a2), (1, a1)]⟩ = .ok none ∧
      IterU.nextBack ⟨c._store, [(1, a1), (2, a2), (3, a3)], [(3, a3), (2, a2), (1, a1)]⟩ =
        .ok (some (r3, ⟨c._store, [(1, a1), (2, a2), (3, a3)], [(2, a2), (1, a1)]⟩)) ∧
      IterU.nextBack ⟨c._store, [(1, a1), (2, a2), (3, a3)], [(2, a2), (1, a1)]⟩ =
        .ok (some (r2, ⟨c._store, [(1, a1), (2, a2), (3, a3)], [(1, a1)]⟩)) ∧
      IterU.nextBack ⟨c._store, [(1, a1), (2, a2), (3, a3)], [(1, a1)]⟩ =
        .ok (some (r1, ⟨c._store, [(1, a1), (2, a2), (3, a3)], []⟩)) ∧
      IterU.nextBack ⟨c._store, [(1, a1), (2, a2), (3, a3)], []⟩ = .ok none := by
  subst hm
  have hfat := WF_at hwf hi
  obtain ⟨houter, hval⟩ := hfat
  have h1 := hval (1, a1) (by simp)
  have h2 := hval (2, a2) (by simp)
  have h3 := hval (3, a3) (by simp)
  rw [Option.map_eq_some'] at h1 h2 h3
  obtain ⟨r1, hr1, hk1⟩ := h1
  obtain ⟨r2, hr2, hk2⟩ := h2
  obtain ⟨r3, hr3, hk3⟩ := h3
  refine ⟨r1, r2, r3, hr1, hr2, hr3, hk1, hk2, hk3, ?_, ?_, ?_, ?_, rfl, ?_, ?_, ?_, rfl⟩
  · rw [iterByUnique_eq hi]
    rfl
  · simp only [IterU.next, hr1]
  · simp only [IterU.next, hr2]
  · simp only [IterU.next, hr3]
  · simp only [IterU.nextBack, hr3]
  · simp only [IterU.nextBack, hr2]
  · simp only [IterU.nextBack, hr1]

/-- Witness for C7 on a concrete three-record container. -/
theorem C7_order_fidelity_witness :
    ∃ r1 r2 r3,
      (⟨⟨[some [2], some [1], some [3]], []⟩,
        [.unique [(1, 1), (2, 0), (3, 2)]]⟩ : MultiIndexMap)._store.get 1 = some r1 ∧
      (⟨⟨[some [2], some [1], some [3]], []⟩,
        [.unique [(1, 1), (2, 0), (3, 2)]]⟩ : MultiIndexMap)._store.get 0 = some r2 ∧
      (⟨⟨[some [2], some [1], some [3]], []⟩,
        [.unique [(1, 1), (2, 0), (3, 2)]]⟩ : MultiIndexMap)._store.get 2 = some r3 ∧
      r1.getD 0 0 = 1 ∧ r2.getD 0 0 = 2 ∧ r3.getD 0 0 = 3 ∧
      MultiIndexMap.iterByUnique
        ⟨⟨[some [2], some [1], some [3]], []⟩, [.unique [(1, 1), (2, 0), (3, 2)]]⟩ 0 =
        some ⟨⟨[some [2], some [1], some [3]], []⟩, [(1, 1), (2, 0), (3, 2)],
          [(3, 2), (2, 0), (1, 1)]⟩ ∧
      IterU.next ⟨⟨[some [2], some [1], some [3]], []⟩, [(1, 1), (2, 0), (3, 2)],
          [(3, 2), (2, 0), (1, 1)]⟩ =
        .ok (some (r1, ⟨⟨[some [2], some [1], some [3]], []⟩, [(2, 0), (3, 2)],
          [(3, 2), (2, 0), (1, 1)]⟩)) ∧
      IterU.next ⟨⟨[some [2], some [1], some [3]], []⟩, [(2, 0), (3, 2)],
          [(3, 2), (2, 0), (1, 1)]⟩ =
        .ok (some (r2, ⟨⟨[some [2], some [1], some [3]], []⟩, [(3, 2)],
          [(3, 2), (2, 0), (1, 1)]⟩)) ∧
      IterU.next ⟨⟨[some [2], some [1], some [3]], []⟩, [(3, 2)],
          [(3, 2), (2, 0), (1, 1)]⟩ =
        .ok (some (r3, ⟨⟨[some [2], some [1], some [3]], []⟩, [],
          [(3, 2), (2, 0), (1, 1)]⟩)) ∧
      IterU.next ⟨⟨[some [2], some [1], some [3]], []⟩, [],
          [(3, 2), (2, 0), (1, 1)]⟩ = .ok none ∧
      IterU.nextBack ⟨⟨[some [2], some [1], some [3]], []⟩, [(1, 1), (2, 0), (3, 2)],
          [(3, 2), (2, 0), (1, 1)]⟩ =
        .ok (some (r3, ⟨⟨[some [2], some [1], some [3]], []⟩, [(1, 1), (2, 0), (3, 2)],
          [(2, 0), (1, 1)]⟩)) ∧
      IterU.nextBack ⟨⟨[some [2], some [1], some [3]], []⟩, [(1, 1), (2, 0), (3, 2)],
          [(2, 0), (1, 1)]⟩ =
        .ok (some (r2, ⟨⟨[some [2], some [1], some [3]], []⟩, [(1, 1), (2, 0), (3, 2)],
          [(1, 1)]⟩)) ∧
      IterU.nextBack ⟨⟨[some [2], some [1], some [3]], []⟩, [(1, 1), (2, 0), (3, 2)],
          [(1, 1)]⟩ =
        .ok (some (r1, ⟨⟨[some [2], some [1], some [3]], []⟩, [(1, 1), (2, 0), (3, 2)],
          []⟩)) ∧
      IterU.nextBack ⟨⟨[some [2], some [1], some [3]], []⟩, [(1, 1), (2, 0), (3, 2)],
          []⟩ = .ok none :=
  C7_order_fidelity
    ⟨⟨[some [2], some [1], some [3]], []⟩, [.unique [(1, 1), (2, 0), (3, 2)]]⟩
    0 1 0 2 [(1, 1), (2, 0), (3, 2)] (by decide) rfl (by decide)

/-- The effect of one field's insert snippet on its lookup table. -/
def insStepF (r : Record) (s : Nat) (i : Nat) : FieldIndex → FieldIndex
  | .unique m => .unique (insertU m (r.getD i 0) s).1
  | .nonUnique m => .nonUnique (entryInsertNU m (r.getD i 0) s)
  | .unindexed => .unindexed

theorem insertU_snd_none {m : UM} {k : Nat} (h : lookupU m k = none) (v : Nat) :
    (insertU m k v).2 = none := by
  induction m with
  | nil => rfl
  | cons b t ih =>
    obtain ⟨k', v'⟩ := b
    simp only [lookupU] at h
    by_cases h1 : k = k'
    · rw [if_pos h1] at h
      cases h
    · rw [if_neg h1] at h
      simp only [insertU]
      by_cases h2 : k < k'
      · simp [h2]
      · simp [h2, h1, ih h]

theorem insertSteps_run {r : Record} {s : Nat} :
    ∀ {i0 : Nat} {fs : List FieldIndex},
      (∀ j m, fs.get? j = some (.unique m) → lookupU m (r.getD (i0 + j) 0) = none) →
      ∃ fs', insertSteps r s i0 fs = .ok fs' ∧ fs'.length = fs.length ∧
        ∀ j fi, fs.get? j = some fi → fs'.get? j = some (insStepF r s (i0 + j) fi) := by
  intro i0 fs
  induction fs generalizing i0 with
  | nil =>
    intro _
    exact ⟨[], rfl, rfl, fun j fi hj => by cases j <;> cases hj⟩
  | cons b t ih =>
    intro hfresh
    have hb : insStepE r s i0 b = .ok (insStepF r s i0 b) := by
      cases b with
      | unique m =>
        have hfr : lookupU m (r.getD (i0 + 0) 0) = none := hfresh 0 m rfl
        rw [Nat.add_zero] at hfr
        simp only [insStepE, insStepF]
        rw [insertU_snd_none hfr]
        rfl
      | nonUnique m => rfl
      | unindexed => rfl
    obtain ⟨t', ht', hlen, hrest⟩ := ih (fun j m hj => by
      have := hfresh (j + 1) m hj
      have hsh : i0 + (j + 1) = (i0 + 1) + j := by omega
      rwa [hsh] at this)
    refine ⟨insStepF r s i0 b :: t', ?_, by simpa using hlen, ?_⟩
    · simp only [insertSteps]
      rw [hb, ht']
    · intro j fi hj
      cases j with
      | zero =>
        obtain rfl : b = fi := by simpa using hj
        simp
      | succ j =>
        have := hrest j fi hj
        have hsh : (i0 + 1) + j = i0 + (j + 1) := by omega
        rw [hsh] at this
        exact this

/-- C5 (round trip): after inserting a record whose unique-field keys are
not already present, looking it up by the value of any of its indexed
fields returns it: `get_by` on a unique index returns the record, and
`get_by` on a non-unique index returns a sequence containing it. -/
theorem C5_round_trip (c : MultiIndexMap) (r : Record) (hwf : c.WF)
    (hfresh : ∀ j m, c.indices.get? j = some (.unique m) →
      lookupU m (r.getD j 0) = none) :
    ∃ c', c.insert r = .ok c' ∧
      (∀ j m, c.indices.get? j = some (.unique m) →
        c'.getByUnique j (r.getD j 0) = .ok (some r)) ∧
      (∀ j m, c.indices.get? j = some (.nonUnique m) →
        ∃ rs, c'.getByNonUnique j (r.getD j 0) = .ok rs ∧ r ∈ rs) := by
  obtain ⟨hselfnew, hfreshslot, hpreserve, hwf'⟩ := slab_insert_spec hwf.1 r
  obtain ⟨fs', hrun, hlen2, hpt⟩ := @insertSteps_run r (c._store.insert r).1 0
    c.indices (fun j m hj => by
      have := hfresh j m hj
      rwa [Nat.zero_add])
  refine ⟨⟨(c._store.insert r).2, fs'⟩, ?_, ?_, ?_⟩
  · simp only [MultiIndexMap.insert, hrun]
  · intro j m hj
    have hj' := hpt j (.unique m) hj
    rw [Nat.zero_add] at hj'
    have hj2 : (⟨(c._store.insert r).2, fs'⟩ : MultiIndexMap).indices.get? j =
        some (.unique (insertU m (r.getD j 0) (c._store.insert r).1).1) := hj'
    rw [getByUnique_eq hj2, lookupU_insertU_self]
    simp only [hselfnew]
  · intro j m hj
    have hj' := hpt j (.nonUnique m) hj
    rw [Nat.zero_add] at hj'
    have hj2 : (⟨(c._store.insert r).2, fs'⟩ : MultiIndexMap).indices.get? j =
        some (.nonUnique (entryInsertNU m (r.getD j 0) (c._store.insert r).1)) := hj'
    have hfat := WF_at hwf hj
    obtain ⟨houter, hmem⟩ := hfat
    have hgets : getNU (entryInsertNU m (r.getD j 0) (c._store.insert r).1) (r.getD j 0) =
        some (setInsert ((getNU m (r.getD j 0)).getD []) (c._store.insert r).1) :=
      getNU_entryInsertNU_self m _ _ houter
    have hocc : ∀ q ∈ setInsert ((getNU m (r.getD j 0)).getD []) (c._store.insert r).1,
        ∃ rq, (c._store.insert r).2.get q = some rq := by
      intro q hq
      rcases (mem_setInsert_iff _ _ q).1 hq with rfl | hq
      · exact ⟨r, hselfnew⟩
      · have hold : ∃ rq, c._store.get q = some rq := by
          cases hgo : getNU m (r.getD j 0) with
          | none => rw [hgo] at hq; cases hq
          | some l0 =>
            rw [hgo] at hq
            obtain ⟨hne, hsorted, hval⟩ := hmem (r.getD j 0, l0) (getNU_mem hgo)
            have h3 := hval q hq
            rw [Option.map_eq_some'] at h3
            obtain ⟨rq, hrq, _⟩ := h3
            exact ⟨rq, hrq⟩
        obtain ⟨rq, hrq⟩ := hold
        have hqs : q ≠ (c._store.insert r).1 := by
          intro he
          rw [he, hfreshslot] at hrq
          cases hrq
        rw [hpreserve q hqs]
        exact ⟨rq, hrq⟩
    refine ⟨(setInsert ((getNU m (r.getD j 0)).getD []) (c._store.insert r).1).map
        (fun q => ((c._store.insert r).2.get q).getD []), ?_, ?_⟩
    · rw [getByNonUnique_eq hj2, hgets]
      exact slotsToRecs_ok hocc
    · have hsm : (c._store.insert r).1 ∈
          setInsert ((getNU m (r.getD j 0)).getD []) (c._store.insert r).1 :=
        (mem_setInsert_iff _ _ _).2 (Or.inl rfl)
      refine List.mem_map.2 ⟨(c._store.insert r).1, hsm, ?_⟩
      rw [hselfnew]
      rfl

/-- Witness for C5 on an empty container with one unique and one
non-unique field. -/
theorem C5_round_trip_witness :
    ∃ c', MultiIndexMap.insert ⟨⟨[], []⟩, [.unique [], .nonUnique []]⟩ [4, 9] = .ok c' ∧
      (∀ j m, (⟨⟨[], []⟩, [.unique [], .nonUnique []]⟩ : MultiIndexMap).indices.get? j =
          some (.unique m) →
        c'.getByUnique j (([4, 9] : Record).getD j 0) = .ok (some [4, 9])) ∧
      (∀ j m, (⟨⟨[], []⟩, [.unique [], .nonUnique []]⟩ : MultiIndexMap).indices.get? j =
          some (.nonUnique m) →
        ∃ rs, c'.getByNonUnique j (([4, 9] : Record).getD j 0) = .ok rs ∧ [4, 9] ∈ rs) :=
  C5_round_trip ⟨⟨[], []⟩, [.unique [], .nonUnique []]⟩ [4, 9] (by decide)
    (fun j m hj => by
      rcases j with _ | _ | n
      · cases hj
        rfl
      · cases hj
      · cases hj)

/-! ### Claim C6 machinery: inserting a shared-key group, then removing it -/

theorem get?_lt_length {α : Type} {l : List α} {i : Nat} {a : α}
    (h : l.get? i = some a) : i < l.length := by
  rw [List.get?_eq_getElem?] at h
  exact (List.getElem?_eq_some.1 h).1

theorem get?_set_self {α : Type} {l : List α} {i : Nat} (h : i < l.length) (x : α) :
    (l.set i x).get? i = some x := by
  rw [List.get?_eq_getElem?]
  simp [List.getElem?_set_self', h]

theorem get?_set_ne {α : Type} {l : List α} {i j : Nat} (h : j ≠ i) (x : α) :
    (l.set i x).get? j = l.get? j := by
  rw [List.get?_eq_getElem?, List.get?_eq_getElem?]
  rw [List.getElem?_set_ne (fun he => h he.symm)]

theorem getD_append_cons {α : Type} (pref : List α) (r : α) (rest : List α) (d : α) :
    (pref ++ r :: rest).getD pref.length d = r := by
  induction pref with
  | nil => rfl
  | cons a t ih => exact ih

theorem drop_eq_getD_cons {α : Type} {l : List α} {n : Nat} (h : n < l.length)
    (d : α) : l.drop n = l.getD n d :: l.drop (n + 1) := by
  induction l generalizing n with
  | nil => simp at h
  | cons a t ih =>
    cases n with
    | zero => rfl
    | succ n => exact ih (by simpa using h)

theorem setInsert_append {l : List Nat} {x : Nat} (h : ∀ y ∈ l, y < x) :
    setInsert l x = l ++ [x] := by
  induction l with
  | nil => rfl
  | cons a t ih =>
    have ha : a < x := h a (List.mem_cons_self _ _)
    simp only [setInsert]
    rw [if_neg (by omega), if_neg (by omega)]
    rw [ih (fun y hy => h y (List.mem_cons_of_mem _ hy))]
    rfl

theorem eq_singleton_of_mem_len_le {l : List Nat} {q : Nat} (hm : q ∈ l)
    (hl : l.length ≤ 1) : l = [q] := by
  cases l with
  | nil => cases hm
  | cons a t =>
    cases t with
    | nil =>
      obtain rfl : q = a := List.mem_singleton.1 hm
      rfl
    | cons b t2 => simp at hl

theorem removeSteps_run {rO : Record} {idx : Nat} :
    ∀ {i0 : Nat} {fs : List FieldIndex},
      (∀ j m, fs.get? j = some (.nonUnique m) →
        ∃ m', removeNUAt m (rO.getD (i0 + j) 0) idx = .ok m') →
      ∃ fs', removeSteps rO idx i0 fs = .ok fs' ∧ fs'.length = fs.length ∧
        ∀ j fi, fs.get? j = some fi →
          ∃ fo, removeStepF rO idx (i0 + j) fi = .ok fo ∧ fs'.get? j = some fo := by
  intro i0 fs
  induction fs generalizing i0 with
  | nil => intro _; exact ⟨[], rfl, rfl, fun j fi hj => by cases j <;> cases hj⟩
  | cons b t ih =>
    intro hall
    have hb : ∃ f0, removeStepF rO idx i0 b = .ok f0 := by
      cases b with
      | unique m => exact ⟨_, rfl⟩
      | nonUnique m =>
        obtain ⟨m', hm'⟩ := hall 0 m rfl
        rw [Nat.add_zero] at hm'
        refine ⟨.nonUnique m', ?_⟩
        show (removeNUAt m (rO.getD i0 0) idx).map FieldIndex.nonUnique = _
        rw [hm']
        rfl
      | unindexed => exact ⟨_, rfl⟩
    obtain ⟨f0, hf0⟩ := hb
    obtain ⟨t', ht', hlen, hrest⟩ := ih (fun j m hj => by
      have := hall (j + 1) m hj
      have hsh : i0 + (j + 1) = (i0 + 1) + j := by omega
      rwa [hsh] at this)
    refine ⟨f0 :: t', ?_, by simpa using hlen, ?_⟩
    · simp only [removeSteps]
      rw [hf0, ht']
      rfl
    · intro j fi hj
      cases j with
      | zero =>
        obtain rfl : b = fi := by simpa using hj
        exact ⟨f0, by simpa using hf0, rfl⟩
      | succ j =>
        obtain ⟨fo, hfo, hget⟩ := hrest j fi hj
        have hsh : (i0 + 1) + j = i0 + (j + 1) := by omega
        rw [hsh] at hfo
        exact ⟨fo, hfo, hget⟩

theorem removeNUAt_ok_of_mem {m : NUM} {k idx : Nat}
    (h : idx ∈ (getNU m k).getD []) : ∃ m', removeNUAt m k idx = .ok m' := by
  unfold removeNUAt
  split
  · exact ⟨m, rfl⟩
  · rename_i elems hg
    rw [hg] at h
    simp only [Option.getD_some] at h
    by_cases h1 : 1 < elems.length
    · rw [if_pos h1, if_pos h]
      exact ⟨_, rfl⟩
    · rw [if_neg h1]
      exact ⟨_, rfl⟩

theorem removeNUAt_pending {m m' : NUM} {k idx : Nat}
    (h : removeNUAt m k idx = .ok m') (hmem : idx ∈ (getNU m k).getD []) :
    ∀ t key, t ≠ idx → t ∈ (getNU m key).getD [] → t ∈ (getNU m' key).getD [] := by
  intro t key htne hmt
  unfold removeNUAt at h
  split at h
  · cases h
    exact hmt
  · rename_i elems hg
    rw [hg] at hmem
    simp only [Option.getD_some] at hmem
    by_cases h1 : 1 < elems.length
    · rw [if_pos h1, if_pos hmem] at h
      cases h
      by_cases hkey : key = k
      · subst hkey
        rw [getNU_setValNU_self m hg]
        rw [hg] at hmt
        simp only [Option.getD_some] at hmt ⊢
        exact (List.mem_erase_of_ne htne).2 hmt
      · rw [getNU_setValNU_ne m (fun he => hkey he) _]
        exact hmt
    · rw [if_neg h1] at h
      cases h
      have helems : elems = [idx] := eq_singleton_of_mem_len_le hmem (by omega)
      by_cases hkey : key = k
      · subst hkey
        rw [hg, helems] at hmt
        simp only [Option.getD_some, List.mem_singleton] at hmt
        exact absurd hmt htne
      · rw [getNU_removeKeyNU_ne m (fun he => hkey he)]
        exact hmt

theorem removeNUAt_none_preserved {m m' : NUM} {k idx K : Nat}
    (h : removeNUAt m k idx = .ok m') (hK : getNU m K = none) :
    getNU m' K = none := by
  unfold removeNUAt at h
  split at h
  · cases h
    exact hK
  · rename_i elems hg
    have hKk : K ≠ k := by
      intro he
      rw [he, hg] at hK
      cases hK
    by_cases h1 : 1 < elems.length
    · rw [if_pos h1] at h
      by_cases h2 : idx ∈ elems
      · rw [if_pos h2] at h
        cases h
        rw [getNU_setValNU_ne m hKk]
        exact hK
      · rw [if_neg h2] at h
        cases h
    · rw [if_neg h1] at h
      cases h
      rw [getNU_removeKeyNU_ne m hKk]
      exact hK

theorem removeNUAt_none {m : NUM} {k idx : Nat} (h : getNU m k = none) :
    removeNUAt m k idx = .ok m := by
  unfold removeNUAt
  split
  · rfl
  · rename_i elems hg
    rw [h] at hg
    cases hg

theorem get?_isSome_of_lt {α : Type} {l : List α} {j : Nat} (h : j < l.length) :
    ∃ a, l.get? j = some a := by
  rw [List.get?_eq_getElem?]
  exact ⟨l[j], List.getElem?_eq_getElem h⟩

/-- The loop of the non-unique remover, run over the pending ascending
slots `q, q+1, ..., rs.length - 1` of a store holding record `rs.getD t`
at slot `t`: it returns exactly the pending records in order, every
removal step succeeds, and the removed key stays absent from the named
index. -/
theorem removeLoop_grouped {rs : List Record} {i K : Nat}
    (hKall : ∀ t, t < rs.length → (rs.getD t []).getD i 0 = K) :
    ∀ (n : Nat), ∀ (q : Nat), q + n = rs.length →
    ∀ (st : Slab) (fs : List FieldIndex) (mI : NUM),
      (∀ t, st.get t = if q ≤ t ∧ t < rs.length then some (rs.getD t []) else none) →
      fs.get? i = some (.nonUnique mI) → getNU mI K = none →
      (∀ j mj, j ≠ i → fs.get? j = some (.nonUnique mj) →
        ∀ t, q ≤ t → t < rs.length →
          t ∈ (getNU mj ((rs.getD t []).getD j 0)).getD []) →
      ∃ st' fs' mI', removeLoop (List.range' q n) st fs = .ok (rs.drop q, st', fs') ∧
        fs'.get? i = some (.nonUnique mI') ∧ getNU mI' K = none := by
  intro n
  induction n with
  | zero =>
    intro q hq st fs mI hst hfi hKnone hcompl
    refine ⟨st, fs, mI, ?_, hfi, hKnone⟩
    have hdrop : rs.drop q = [] := List.drop_eq_nil_of_le (by omega)
    rw [hdrop]
    rfl
  | succ n ih =>
    intro q hq st fs mI hst hfi hKnone hcompl
    have hqlt : q < rs.length := by omega
    have hget : st.get q = some (rs.getD q []) := by
      rw [hst q, if_pos ⟨le_refl q, hqlt⟩]
    have hrem : st.remove q =
        some (rs.getD q [], ⟨st.entries.set q none, q :: st.free⟩) := by
      unfold Slab.remove
      rw [hget]
    obtain ⟨fs1, hsteps, hlen, hpt⟩ := @removeSteps_run (rs.getD q []) q 0 fs (fun j mj hj => by
        rw [Nat.zero_add]
        by_cases hji : j = i
        · subst hji
          rw [hfi] at hj
          cases hj
          rw [hKall q hqlt]
          exact ⟨mI, removeNUAt_none hKnone⟩
        · exact removeNUAt_ok_of_mem (hcompl j mj hji hj q (le_refl q) hqlt))
    have hst1 : ∀ t, (⟨st.entries.set q none, q :: st.free⟩ : Slab).get t =
        if q + 1 ≤ t ∧ t < rs.length then some (rs.getD t []) else none := by
      intro t
      by_cases htq : t = q
      · subst htq
        show (st.entries.set t none).getD t none = _
        rw [getD_set_self (slab_get_lt hget)]
        rw [if_neg (by omega)]
      · show (st.entries.set q none).getD t none = _
        rw [getD_set_ne htq]
        have := hst t
        rw [Slab.get] at this
        rw [this]
        by_cases h2 : q + 1 ≤ t ∧ t < rs.length
        · rw [if_pos ⟨by omega, h2.2⟩, if_pos h2]
        · rw [if_neg (fun hc => h2 ⟨by omega, hc.2⟩), if_neg h2]
    obtain ⟨foI, hfoI, hgetI⟩ := hpt i (.nonUnique mI) hfi
    have hfoIeq : foI = .nonUnique mI := by
      have hx : removeStepF (rs.getD q []) q (0 + i) (.nonUnique mI) = .ok foI := hfoI
      rw [Nat.zero_add] at hx
      show _ = _
      have hx2 : (removeNUAt mI ((rs.getD q []).getD i 0) q).map FieldIndex.nonUnique =
          .ok foI := hx
      rw [hKall q hqlt, removeNUAt_none hKnone] at hx2
      cases hx2
      rfl
    subst hfoIeq
    have hcompl1 : ∀ j mj', j ≠ i → fs1.get? j = some (.nonUnique mj') →
        ∀ t, q + 1 ≤ t → t < rs.length →
          t ∈ (getNU mj' ((rs.getD t []).getD j 0)).getD [] := by
      intro j mj' hji hj1 t ht1 ht2
      have hjlt : j < fs.length := by
        have := get?_lt_length hj1
        omega
      obtain ⟨fi0, hfi0⟩ := get?_isSome_of_lt hjlt
      obtain ⟨fo, hfo, hget0⟩ := hpt j fi0 hfi0
      rw [hj1] at hget0
      cases hget0
      rw [Nat.zero_add] at hfo
      cases fi0 with
      | unique m0 => cases hfo
      | unindexed => cases hfo
      | nonUnique m0 =>
        have hfo2 : (removeNUAt m0 ((rs.getD q []).getD j 0) q).map
            FieldIndex.nonUnique = .ok (.nonUnique mj') := hfo
        cases hra : removeNUAt m0 ((rs.getD q []).getD j 0) q with
        | error e => rw [hra] at hfo2; cases hfo2
        | ok m1 =>
          rw [hra] at hfo2
          cases hfo2
          have hqm : q ∈ (getNU m0 ((rs.getD q []).getD j 0)).getD [] :=
            hcompl j m0 hji hfi0 q (le_refl q) hqlt
          exact removeNUAt_pending hra hqm t _ (by omega)
            (hcompl j m0 hji hfi0 t (by omega) ht2)
    obtain ⟨st', fs', mI', hloop, hfi', hK'⟩ := ih (q + 1) (by omega)
      ⟨st.entries.set q none, q :: st.free⟩ fs1 mI hst1 hgetI hKnone hcompl1
    refine ⟨st', fs', mI', ?_, hfi', hK'⟩
    have hr' : List.range' q (n + 1) = q :: List.range' (q + 1) n :=
      List.range'_succ q n 1
    rw [hr']
    simp only [removeLoop, hrem, hsteps, hloop, Except.map]
    rw [drop_eq_getD_cons hqlt ([] : Record)]

/-- The `insertAll` loop: insert the records one by one, aborting the
sequence at the first panic. -/
def insertAll (c : MultiIndexMap) : List Record → Except (String × MultiIndexMap) MultiIndexMap
  | [] => .ok c
  | r :: t =>
    match c.insert r with
    | .error e => .error e
    | .ok c' => insertAll c' t

/-- Invariant of the insertion phase of C6's scenario: after inserting
the first `n` of the records `rs` (all sharing key `K` on non-unique
field `i`) into an initially empty container with schema `fs0`, slot `t`
holds record `t` for `t < n`, unique tables map keys only to inserted
slots with matching field values, non-unique tables contain every
inserted slot under its field value, and field `i`'s table is exactly
`K ↦ {0, ..., n-1}`. -/
def AInv (fs0 : List FieldIndex) (rs : List Record) (i K : Nat) (n : Nat)
    (c : MultiIndexMap) : Prop :=
  (∀ t, c._store.get t = if t < n then some (rs.getD t []) else none) ∧
  c._store.free = [] ∧ c._store.entries.length = n ∧
  (∀ j m, c.indices.get? j = some (.unique m) →
    (∃ m0, fs0.get? j = some (.unique m0)) ∧
    List.Pairwise (· < ·) (m.map Prod.fst) ∧
    (∀ key v, lookupU m key = some v → v < n ∧ (rs.getD v []).getD j 0 = key)) ∧
  (∀ j m, j ≠ i → c.indices.get? j = some (.nonUnique m) →
    List.Pairwise (· < ·) (m.map Prod.fst) ∧
    (∀ t, t < n → t ∈ (getNU m ((rs.getD t []).getD j 0)).getD [])) ∧
  c.indices.get? i = some (.nonUnique (if n = 0 then [] else [(K, List.range n)]))

theorem AInv_step {fs0 : List FieldIndex} {rs : List Record} {i K : Nat}
    (hK : ∀ t, t < rs.length → (rs.getD t []).getD i 0 = K)
    (hdist : ∀ j m0, fs0.get? j = some (.unique m0) → ∀ a b, a < rs.length →
      b < rs.length → a ≠ b → (rs.getD a []).getD j 0 ≠ (rs.getD b []).getD j 0)
    {n : Nat} (hn : n < rs.length) {c : MultiIndexMap}
    (hinv : AInv fs0 rs i K n c) :
    ∃ c', c.insert (rs.getD n []) = .ok c' ∧ AInv fs0 rs i K (n + 1) c' := by
  obtain ⟨hst, hfree, hlen, huniq, hnonu, hfi⟩ := hinv
  have hins : c._store.insert (rs.getD n []) =
      (c._store.entries.length, ⟨c._store.entries ++ [some (rs.getD n [])], []⟩) := by
    unfold Slab.insert
    rw [hfree]
  obtain ⟨fs', hrun, hlenf, hpt⟩ := @insertSteps_run (rs.getD n [])
    (c._store.insert (rs.getD n [])).1 0 c.indices (fun j m hj => by
      rw [Nat.zero_add]
      cases hl : lookupU m ((rs.getD n []).getD j 0) with
      | none => rfl
      | some v =>
        obtain ⟨⟨m0, hm0⟩, hsort, hval⟩ := huniq j m hj
        obtain ⟨hvn, hveq⟩ := hval _ v hl
        exact absurd hveq (hdist j m0 hm0 v n (by omega) hn (by omega)))
  refine ⟨⟨(c._store.insert (rs.getD n [])).2, fs'⟩, ?_, ?_, ?_, ?_, ?_, ?_, ?_⟩
  · simp only [MultiIndexMap.insert, hrun]
  · intro t
    show ((c._store.insert (rs.getD n [])).2).get t = _
    rw [hins]
    by_cases ht1 : t < n
    · show (c._store.entries ++ [some (rs.getD n [])]).getD t none = _
      rw [getD_append_ne _ _ _ (by omega)]
      have := hst t
      rw [Slab.get] at this
      rw [this, if_pos ht1, if_pos (by omega)]
    · by_cases ht2 : t = n
      · subst ht2
        show (c._store.entries ++ [some (rs.getD t [])]).getD t none = _
        rw [if_pos (by omega)]
        have h5 := getD_append_last c._store.entries (some (rs.getD t [])) none
        rw [hlen] at h5
        exact h5
      · show (c._store.entries ++ [some (rs.getD n [])]).getD t none = _
        rw [if_neg (by omega)]
        apply getD_of_le
        simp only [List.length_append, List.length_singleton]
        omega
  · rw [hins]
  · rw [hins]
    simp only [List.length_append, List.length_singleton]
    omega
  · intro j m' hj'
    have hjlt : j < c.indices.length := by
      have h1 := get?_lt_length hj'
      rw [← hlenf]
      exact h1
    obtain ⟨fi0, hfi0⟩ := get?_isSome_of_lt hjlt
    have hfo := hpt j fi0 hfi0
    rw [Nat.zero_add] at hfo
    rw [hj'] at hfo
    cases fi0 with
    | nonUnique m0 => cases hfo
    | unindexed => cases hfo
    | unique m0 =>
      obtain rfl : (insertU m0 ((rs.getD n []).getD j 0) (c._store.insert (rs.getD n [])).1).1 = m' := by
        cases hfo
        rfl
      obtain ⟨⟨mz, hmz⟩, hsort, hval⟩ := huniq j m0 hfi0
      refine ⟨⟨mz, hmz⟩, insertU_pairwise hsort _ _, ?_⟩
      intro key v hl
      by_cases hkey : key = (rs.getD n []).getD j 0
      · subst hkey
        rw [lookupU_insertU_self] at hl
        cases hl
        rw [hins]
        exact ⟨by omega, by rw [hlen]⟩
      · rw [lookupU_insertU_ne m0 (fun he => hkey he) _] at hl
        obtain ⟨hvn, hveq⟩ := hval key v hl
        exact ⟨by omega, hveq⟩
  · intro j m' hji hj'
    have hjlt : j < c.indices.length := by
      have h1 := get?_lt_length hj'
      rw [← hlenf]
      exact h1
    obtain ⟨fi0, hfi0⟩ := get?_isSome_of_lt hjlt
    have hfo := hpt j fi0 hfi0
    rw [Nat.zero_add] at hfo
    rw [hj'] at hfo
    cases fi0 with
    | unique m0 => cases hfo
    | unindexed => cases hfo
    | nonUnique m0 =>
      obtain rfl : entryInsertNU m0 ((rs.getD n []).getD j 0) (c._store.insert (rs.getD n [])).1 = m' := by
        cases hfo
        rfl
      obtain ⟨hsort, hmem⟩ := hnonu j m0 hji hfi0
      have hslot : (c._store.insert (rs.getD n [])).1 = n := by
        rw [hins, hlen]
      refine ⟨entryInsertNU_pairwise hsort _ _, ?_⟩
      intro t ht
      by_cases ht1 : t < n
      · by_cases hkey : (rs.getD t []).getD j 0 = (rs.getD n []).getD j 0
        · rw [hkey, getNU_entryInsertNU_self m0 _ _ hsort]
          simp only [Option.getD_some]
          refine (mem_setInsert_iff _ _ t).2 (Or.inr ?_)
          have := hmem t ht1
          rwa [hkey] at this
        · rw [getNU_entryInsertNU_ne m0 (fun he => hkey he) _]
          exact hmem t ht1
      · obtain rfl : t = n := by omega
        rw [getNU_entryInsertNU_self m0 _ _ hsort]
        simp only [Option.getD_some]
        rw [hslot]
        exact (mem_setInsert_iff _ _ t).2 (Or.inl rfl)
  · have hfo := hpt i _ hfi
    rw [Nat.zero_add] at hfo
    have hKn : (rs.getD n []).getD i 0 = K := hK n hn
    have hslot : (c._store.insert (rs.getD n [])).1 = n := by
      rw [hins, hlen]
    show fs'.get? i = _
    rw [hfo]
    simp only [insStepF, hKn, hslot]
    have hent : entryInsertNU (if n = 0 then [] else [(K, List.range n)]) K n =
        [(K, List.range (n + 1))] := by
      cases n with
      | zero => rfl
      | succ p =>
        simp only [Nat.succ_ne_zero, if_neg, ite_false]
        simp only [entryInsertNU, lt_irrefl, if_neg, ite_false, if_pos rfl]
        rw [setInsert_append (fun y hy => List.mem_range.1 hy)]
        rw [← List.range_succ]
        simp
    rw [hent]
    rw [if_neg (by omega)]

theorem insertAll_grouped {fs0 : List FieldIndex} {rs : List Record} {i K : Nat}
    (hK : ∀ t, t < rs.length → (rs.getD t []).getD i 0 = K)
    (hdist : ∀ j m0, fs0.get? j = some (.unique m0) → ∀ a b, a < rs.length →
      b < rs.length → a ≠ b → (rs.getD a []).getD j 0 ≠ (rs.getD b []).getD j 0) :
    ∀ (fuel n : Nat), rs.length - n = fuel → n ≤ rs.length →
      ∀ c, AInv fs0 rs i K n c →
      ∃ c', insertAll c (rs.drop n) = .ok c' ∧ AInv fs0 rs i K rs.length c' := by
  intro fuel
  induction fuel with
  | zero =>
    intro n hfuel hle c hinv
    have hn : n = rs.length := by omega
    subst hn
    refine ⟨c, ?_, hinv⟩
    rw [List.drop_length]
    rfl
  | succ f ih =>
    intro n hfuel hle c hinv
    have hn : n < rs.length := by omega
    obtain ⟨c1, hins, hinv1⟩ := AInv_step hK hdist hn hinv
    obtain ⟨c', hall, hinv'⟩ := ih (n + 1) (by omega) (by omega) c1 hinv1
    refine ⟨c', ?_, hinv'⟩
    rw [drop_eq_getD_cons hn ([] : Record)]
    simp only [insertAll, hins]
    exact hall

/-- C6: inserting `k ≥ 1` records that all share key `K` on a non-unique
indexed field into an initially empty container (their unique-field keys
pairwise distinct) and then calling `remove_by` with `K` returns exactly
those `k` records, in insertion order, and afterwards the key is absent
from that index: `get_by` returns the empty sequence. -/
theorem C6_nonunique_group_remove (fs0 : List FieldIndex) (rs : List Record)
    (i K : Nat) (hk1 : 1 ≤ rs.length)
    (hfs0 : ∀ f ∈ fs0, f.isEmptyIdx)
    (hfi : fs0.get? i = some (.nonUnique []))
    (hK : ∀ t, t < rs.length → (rs.getD t []).getD i 0 = K)
    (hdist : ∀ j m0, fs0.get? j = some (.unique m0) → ∀ a b, a < rs.length →
      b < rs.length → a ≠ b → (rs.getD a []).getD j 0 ≠ (rs.getD b []).getD j 0) :
    ∃ c c', insertAll ⟨⟨[], []⟩, fs0⟩ rs = .ok c ∧
      c.removeByNonUnique i K = .ok (rs, c') ∧
      c'.getByNonUnique i K = .ok [] := by
  have hinv0 : AInv fs0 rs i K 0 ⟨⟨[], []⟩, fs0⟩ := by
    refine ⟨?_, rfl, rfl, ?_, ?_, ?_⟩
    · intro t
      rw [if_neg (by omega)]
      rfl
    · intro j m hj
      have hempty := hfs0 _ (List.get?_mem hj)
      have hm : m = [] := hempty
      subst hm
      exact ⟨⟨[], hj⟩, by simp, fun key v hl => by cases hl⟩
    · intro j m hji hj
      have hempty := hfs0 _ (List.get?_mem hj)
      have hm : m = [] := hempty
      subst hm
      exact ⟨by simp, fun t ht => absurd ht (by omega)⟩
    · simpa using hfi
  obtain ⟨c, hall, hinv⟩ := insertAll_grouped hK hdist rs.length 0 (by omega)
    (by omega) _ hinv0
  rw [List.drop_zero] at hall
  obtain ⟨hst, hfree, hlen, huniq, hnonu, hfiC⟩ := hinv
  rw [if_neg (by omega)] at hfiC
  have hrK : removeKeyNU [(K, List.range rs.length)] K =
      ([], some (List.range rs.length)) := by
    simp [removeKeyNU]
  have hloopIn : ∀ t, c._store.get t =
      if 0 ≤ t ∧ t < rs.length then some (rs.getD t []) else none := by
    intro t
    rw [hst t]
    by_cases h2 : t < rs.length
    · rw [if_pos h2, if_pos ⟨by omega, h2⟩]
    · rw [if_neg h2, if_neg (fun hc => h2 hc.2)]
  have hilen : i < c.indices.length := get?_lt_length hfiC
  have hfs1i : (c.indices.set i (.nonUnique [])).get? i = some (.nonUnique []) :=
    get?_set_self hilen _
  have hcompl1 : ∀ j mj, j ≠ i →
      (c.indices.set i (.nonUnique [])).get? j = some (.nonUnique mj) →
      ∀ t, 0 ≤ t → t < rs.length →
        t ∈ (getNU mj ((rs.getD t []).getD j 0)).getD [] := by
    intro j mj hji hj t _ ht
    rw [get?_set_ne hji _] at hj
    exact (hnonu j mj hji hj).2 t ht
  obtain ⟨st', fs'', mI', hloop, hfi'', hK''⟩ := removeLoop_grouped hK rs.length 0
    (by omega) c._store (c.indices.set i (.nonUnique [])) [] hloopIn hfs1i rfl
    hcompl1
  rw [List.drop_zero] at hloop
  have hre : List.range rs.length = List.range' 0 rs.length :=
    List.range_eq_range' _
  rw [← hre] at hloop
  refine ⟨c, ⟨st', fs''⟩, hall, ?_, ?_⟩
  · rw [removeByNonUnique_eq hfiC]
    simp only [hrK, hloop, Except.map]
  · rw [getByNonUnique_eq
      (show (⟨st', fs''⟩ : MultiIndexMap).indices.get? i =
        some (.nonUnique mI') from hfi'')]
    simp only [hK'']

/-- Witness for C6: two records sharing non-unique key 7. -/
theorem C6_nonunique_group_remove_witness :
    ∃ c c', insertAll ⟨⟨[], []⟩, [.nonUnique []]⟩ [[7], [7]] = .ok c ∧
      c.removeByNonUnique 0 7 = .ok ([[7], [7]], c') ∧
      c'.getByNonUnique 0 7 = .ok [] :=
  C6_nonunique_group_remove [.nonUnique []] [[7], [7]] 0 7 (by decide) (by decide)
    (by decide) (by decide)
    (fun j m0 hj => by
      rcases j with _ | n
      · cases hj
      · cases hj)
